import Mathlib

/-
Verification of the findcode code-region discovery engine.

The source (src/src/findcode.cpp, src/src/analysis.cpp, src/src/microcode.cpp)
operates on a byte span with unchecked 4-byte reads.  We embed the span as a
`Rom` (a byte function plus a size bounded like a size_t object), and embed
every unchecked read as `read32`, whose out-of-bounds branch returns `none`;
the algorithms then live in `Except Unit` so that an out-of-bounds access of
the C++ code surfaces as `.error ()`.

The MIPS instruction decoder used by the source is the external rabbitizer
library, which is not part of the repository.  Its behaviour on the
instruction words that matter here is modelled from the spec (section 3's
decoder contract and the standard MIPS III encodings) in the namespaces
`CpuInstr` and `RspInstr`; every function outside those namespaces is a
direct translation of the repository's own code.
-/

deriving instance DecidableEq for Except

namespace Findcode

/-- size_t subtraction: wraps modulo 2^64 for operands below 2^64. -/
def sub64 (a b : Nat) : Nat :=
  if b ≤ a then a - b else a + (2 ^ 64 - b)

/-- A ROM byte span.  `size` is a size_t byte count; the bound (with a margin
for the engine's small constant offsets) models the fact that a span lives in
addressable memory.  Byte values are reduced mod 256 at read time. -/
structure Rom where
  size : Nat
  byte : Nat → Nat
  hsize : size + 4096 < 2 ^ 64

/-- Translation of `read32` (include/findcode.h): a 4-byte little-endian load.
The C++ performs the load with no bounds check; the `none` branch marks the
accesses that would read past the span. -/
def read32 (rom : Rom) (offset : Nat) : Option Nat :=
  if offset + 4 ≤ rom.size then
    some (rom.byte offset % 256 + 256 * (rom.byte (offset + 1) % 256) +
      65536 * (rom.byte (offset + 2) % 256) + 16777216 * (rom.byte (offset + 3) % 256))
  else
    none

/-- Build a concrete ROM from a word table (offset, word); unlisted words are
zero, as in a zero-filled test image. -/
def romOfWords (size : Nat) (words : List (Nat × Nat)) (h : size + 4096 < 2 ^ 64) : Rom :=
  ⟨size, fun n => ((words.lookup (n - n % 4)).getD 0) >>> (8 * (n % 4)), h⟩

/-- Unique instruction ids, one unified enumeration covering the CPU view and
the RSP view, as in the decoder's single unique-id enumeration.  Modelled from
the spec: only the instructions the engine inspects are distinguished; every
other word decodes to the INVALID sentinel of its view. -/
inductive InstrId where
  | cpu_INVALID
  | cpu_nop
  | cpu_sll | cpu_srl | cpu_sra
  | cpu_dsll | cpu_dsrl | cpu_dsra | cpu_dsll32 | cpu_dsrl32 | cpu_dsra32
  | cpu_jr | cpu_jalr | cpu_syscall
  | cpu_mfhi | cpu_mthi | cpu_mflo | cpu_mtlo
  | cpu_add | cpu_addu | cpu_sub | cpu_subu
  | cpu_and | cpu_or | cpu_slt | cpu_sltu
  | cpu_tge | cpu_tgeu | cpu_tlt | cpu_tltu | cpu_teq | cpu_tne
  | cpu_tgei | cpu_tgeiu | cpu_tlti | cpu_tltiu | cpu_teqi | cpu_tnei
  | cpu_bltz | cpu_bgez
  | cpu_j | cpu_jal | cpu_b | cpu_beq | cpu_bne
  | cpu_addi | cpu_addiu | cpu_slti | cpu_sltiu
  | cpu_andi | cpu_ori | cpu_xori | cpu_lui
  | cpu_mfc0 | cpu_mtc0 | cpu_cfc0 | cpu_ctc0
  | cpu_mfc1 | cpu_mtc1 | cpu_dmfc1 | cpu_dmtc1 | cpu_cfc1 | cpu_ctc1
  | cpu_bc1f | cpu_bc1t | cpu_bc1fl | cpu_bc1tl
  | cpu_lb | cpu_lh | cpu_lw | cpu_lbu | cpu_lhu | cpu_lwu | cpu_ld
  | cpu_sb | cpu_sh | cpu_sw | cpu_sd
  | cpu_ll | cpu_sc | cpu_lld | cpu_scd
  | cpu_lwc1 | cpu_ldc1 | cpu_swc1 | cpu_sdc1
  | cpu_lwc2 | cpu_ldc2 | cpu_swc2 | cpu_sdc2
  | cpu_cache | cpu_pref
  | rsp_INVALID
  | rsp_nop
  | rsp_jr
  | rsp_addiu
  | rsp_lw | rsp_sw
  | rsp_mfc0 | rsp_mtc0
  | rsp_lwc1 | rsp_swc1
  | rsp_cache
  | rsp_lqv | rsp_sqv
deriving DecidableEq

/-- The operand kinds the start-boundary analyzer asks about. -/
inductive OperandType where
  | cpu_rd | cpu_rt | cpu_rs | cpu_fd | cpu_ft | cpu_fs
deriving DecidableEq

/-- Primary opcode field (bits 31..26). -/
def opcodeField (w : Nat) : Nat := w >>> 26 % 64

/-- rs field (bits 25..21). -/
def rsField (w : Nat) : Nat := w >>> 21 % 32

/-- rt field (bits 20..16). -/
def rtField (w : Nat) : Nat := w >>> 16 % 32

/-- rd field (bits 15..11). -/
def rdField (w : Nat) : Nat := w >>> 11 % 32

/-- sa field (bits 10..6). -/
def saField (w : Nat) : Nat := w >>> 6 % 32

/-- funct field (bits 5..0). -/
def functField (w : Nat) : Nat := w % 64

namespace CpuInstr

/-- Modelled from the spec: the CPU view's unique-id decode (MIPS III primary
and SPECIAL/REGIMM/COP0/COP1 encodings).  The word 0 decodes to nop. -/
def getUniqueId (w : Nat) : InstrId :=
  if w % 2 ^ 32 = 0 then .cpu_nop else
  match opcodeField w with
  | 0 =>
    match functField w with
    | 0 => .cpu_sll | 2 => .cpu_srl | 3 => .cpu_sra
    | 8 => .cpu_jr | 9 => .cpu_jalr | 12 => .cpu_syscall
    | 16 => .cpu_mfhi | 17 => .cpu_mthi | 18 => .cpu_mflo | 19 => .cpu_mtlo
    | 32 => .cpu_add | 33 => .cpu_addu | 34 => .cpu_sub | 35 => .cpu_subu
    | 36 => .cpu_and | 37 => .cpu_or | 42 => .cpu_slt | 43 => .cpu_sltu
    | 48 => .cpu_tge | 49 => .cpu_tgeu | 50 => .cpu_tlt | 51 => .cpu_tltu
    | 52 => .cpu_teq | 54 => .cpu_tne
    | 56 => .cpu_dsll | 58 => .cpu_dsrl | 59 => .cpu_dsra
    | 60 => .cpu_dsll32 | 62 => .cpu_dsrl32 | 63 => .cpu_dsra32
    | _ => .cpu_INVALID
  | 1 =>
    match rtField w with
    | 0 => .cpu_bltz | 1 => .cpu_bgez
    | 8 => .cpu_tgei | 9 => .cpu_tgeiu | 10 => .cpu_tlti | 11 => .cpu_tltiu
    | 12 => .cpu_teqi | 14 => .cpu_tnei
    | _ => .cpu_INVALID
  | 2 => .cpu_j
  | 3 => .cpu_jal
  | 4 => if rsField w = 0 ∧ rtField w = 0 then .cpu_b else .cpu_beq
  | 5 => .cpu_bne
  | 8 => .cpu_addi | 9 => .cpu_addiu | 10 => .cpu_slti | 11 => .cpu_sltiu
  | 12 => .cpu_andi | 13 => .cpu_ori | 14 => .cpu_xori | 15 => .cpu_lui
  | 16 =>
    match rsField w with
    | 0 => .cpu_mfc0 | 2 => .cpu_cfc0 | 4 => .cpu_mtc0 | 6 => .cpu_ctc0
    | _ => .cpu_INVALID
  | 17 =>
    match rsField w with
    | 0 => .cpu_mfc1 | 1 => .cpu_dmfc1 | 2 => .cpu_cfc1
    | 4 => .cpu_mtc1 | 5 => .cpu_dmtc1 | 6 => .cpu_ctc1
    | 8 =>
      match rtField w % 4 with
      | 0 => .cpu_bc1f | 1 => .cpu_bc1t | 2 => .cpu_bc1fl | _ => .cpu_bc1tl
    | _ => .cpu_INVALID
  | 32 => .cpu_lb | 33 => .cpu_lh | 35 => .cpu_lw
  | 36 => .cpu_lbu | 37 => .cpu_lhu | 39 => .cpu_lwu | 55 => .cpu_ld
  | 40 => .cpu_sb | 41 => .cpu_sh | 43 => .cpu_sw | 63 => .cpu_sd
  | 47 => .cpu_cache
  | 48 => .cpu_ll | 49 => .cpu_lwc1 | 50 => .cpu_lwc2 | 51 => .cpu_pref
  | 52 => .cpu_lld | 53 => .cpu_ldc1 | 54 => .cpu_ldc2
  | 56 => .cpu_sc | 57 => .cpu_swc1 | 58 => .cpu_swc2
  | 60 => .cpu_scd | 61 => .cpu_sdc1 | 62 => .cpu_sdc2
  | _ => .cpu_INVALID

/-- Modelled from the spec: the CPU view's reserved-bit validity flag.  Fields
that the encoding fixes to zero must be zero. -/
def isValid (w : Nat) : Bool :=
  match getUniqueId w with
  | .cpu_INVALID => false
  | .cpu_nop => true
  | .cpu_sll | .cpu_srl | .cpu_sra
  | .cpu_dsll | .cpu_dsrl | .cpu_dsra
  | .cpu_dsll32 | .cpu_dsrl32 | .cpu_dsra32 => decide (rsField w = 0)
  | .cpu_jr => decide (rtField w = 0 ∧ rdField w = 0 ∧ saField w = 0)
  | .cpu_jalr => decide (rtField w = 0 ∧ saField w = 0)
  | .cpu_syscall => true
  | .cpu_mfhi | .cpu_mflo => decide (rsField w = 0 ∧ rtField w = 0 ∧ saField w = 0)
  | .cpu_mthi | .cpu_mtlo => decide (rtField w = 0 ∧ rdField w = 0 ∧ saField w = 0)
  | .cpu_add | .cpu_addu | .cpu_sub | .cpu_subu
  | .cpu_and | .cpu_or | .cpu_slt | .cpu_sltu
  | .cpu_tge | .cpu_tgeu | .cpu_tlt | .cpu_tltu
  | .cpu_teq | .cpu_tne => decide (saField w = 0)
  | .cpu_mfc0 | .cpu_mtc0 | .cpu_cfc0 | .cpu_ctc0
  | .cpu_mfc1 | .cpu_mtc1 | .cpu_dmfc1 | .cpu_dmtc1
  | .cpu_cfc1 | .cpu_ctc1 => decide (w % 2 ^ 11 = 0)
  | _ => true

/-- Modelled from the spec: does the CPU instruction load from memory. -/
def doesLoad (w : Nat) : Bool :=
  match getUniqueId w with
  | .cpu_lb | .cpu_lh | .cpu_lw | .cpu_lbu | .cpu_lhu | .cpu_lwu | .cpu_ld
  | .cpu_ll | .cpu_lld
  | .cpu_lwc1 | .cpu_ldc1 | .cpu_lwc2 | .cpu_ldc2 => true
  | _ => false

/-- Modelled from the spec: does the CPU instruction store to memory. -/
def doesStore (w : Nat) : Bool :=
  match getUniqueId w with
  | .cpu_sb | .cpu_sh | .cpu_sw | .cpu_sd
  | .cpu_sc | .cpu_scd
  | .cpu_swc1 | .cpu_sdc1 | .cpu_swc2 | .cpu_sdc2 => true
  | _ => false

/-- Modelled from the spec: is the CPU instruction a floating-point one. -/
def isFloat (w : Nat) : Bool :=
  match getUniqueId w with
  | .cpu_lwc1 | .cpu_ldc1 | .cpu_swc1 | .cpu_sdc1
  | .cpu_mfc1 | .cpu_mtc1 | .cpu_dmfc1 | .cpu_dmtc1
  | .cpu_cfc1 | .cpu_ctc1
  | .cpu_bc1f | .cpu_bc1t | .cpu_bc1fl | .cpu_bc1tl => true
  | _ => false

/-- Modelled from the spec: does the instruction write the rd register. -/
def modifiesRd (w : Nat) : Bool :=
  match getUniqueId w with
  | .cpu_sll | .cpu_srl | .cpu_sra
  | .cpu_dsll | .cpu_dsrl | .cpu_dsra
  | .cpu_dsll32 | .cpu_dsrl32 | .cpu_dsra32
  | .cpu_add | .cpu_addu | .cpu_sub | .cpu_subu
  | .cpu_and | .cpu_or | .cpu_slt | .cpu_sltu
  | .cpu_jalr | .cpu_mfhi | .cpu_mflo => true
  | _ => false

/-- Modelled from the spec: does the instruction write the rt register. -/
def modifiesRt (w : Nat) : Bool :=
  match getUniqueId w with
  | .cpu_addi | .cpu_addiu | .cpu_slti | .cpu_sltiu
  | .cpu_andi | .cpu_ori | .cpu_xori | .cpu_lui
  | .cpu_mfc0 | .cpu_cfc0 | .cpu_mfc1 | .cpu_dmfc1 | .cpu_cfc1
  | .cpu_lb | .cpu_lh | .cpu_lw | .cpu_lbu | .cpu_lhu | .cpu_lwu | .cpu_ld
  | .cpu_ll | .cpu_lld => true
  | _ => false

/-- Modelled from the spec: is the instruction a trap. -/
def isTrap (w : Nat) : Bool :=
  match getUniqueId w with
  | .cpu_tge | .cpu_tgeu | .cpu_tlt | .cpu_tltu | .cpu_teq | .cpu_tne
  | .cpu_tgei | .cpu_tgeiu | .cpu_tlti | .cpu_tltiu | .cpu_teqi | .cpu_tnei => true
  | _ => false

/-- O32 rs accessor: the raw rs field index. -/
def GetO32_rs (w : Nat) : Nat := rsField w

/-- O32 rt accessor: the raw rt field index. -/
def GetO32_rt (w : Nat) : Nat := rtField w

/-- O32 rd accessor: the raw rd field index. -/
def GetO32_rd (w : Nat) : Nat := rdField w

/-- O32 fs accessor: the fs field occupies the rd position. -/
def GetO32_fs (w : Nat) : Nat := rdField w

/-- O32 ft accessor: the ft field occupies the rt position. -/
def GetO32_ft (w : Nat) : Nat := rtField w

/-- O32 fd accessor: the fd field occupies the sa position. -/
def GetO32_fd (w : Nat) : Nat := saField w

/-- The cache-op operand: the rt field of a cache instruction. -/
def Get_op (w : Nat) : Nat := rtField w

/-- The shift amount operand. -/
def Get_sa (w : Nat) : Nat := saField w

/-- Modelled from the spec: does the instruction's operand list contain (an
alias of) the given operand kind. -/
def hasOperandAlias (w : Nat) (operand : OperandType) : Bool :=
  let id := getUniqueId w
  match operand with
  | .cpu_rs => decide (id ∈ [InstrId.cpu_jr, .cpu_jalr,
      .cpu_add, .cpu_addu, .cpu_sub, .cpu_subu,
      .cpu_and, .cpu_or, .cpu_slt, .cpu_sltu,
      .cpu_tge, .cpu_tgeu, .cpu_tlt, .cpu_tltu, .cpu_teq, .cpu_tne,
      .cpu_tgei, .cpu_tgeiu, .cpu_tlti, .cpu_tltiu, .cpu_teqi, .cpu_tnei,
      .cpu_bltz, .cpu_bgez, .cpu_beq, .cpu_bne,
      .cpu_addi, .cpu_addiu, .cpu_slti, .cpu_sltiu,
      .cpu_andi, .cpu_ori, .cpu_xori,
      .cpu_mthi, .cpu_mtlo,
      .cpu_lb, .cpu_lh, .cpu_lw, .cpu_lbu, .cpu_lhu, .cpu_lwu, .cpu_ld,
      .cpu_ll, .cpu_lld,
      .cpu_sb, .cpu_sh, .cpu_sw, .cpu_sd, .cpu_sc, .cpu_scd,
      .cpu_lwc1, .cpu_ldc1, .cpu_swc1, .cpu_sdc1,
      .cpu_lwc2, .cpu_ldc2, .cpu_swc2, .cpu_sdc2,
      .cpu_cache, .cpu_pref])
  | .cpu_rt => decide (id ∈ [InstrId.cpu_sll, .cpu_srl, .cpu_sra,
      .cpu_dsll, .cpu_dsrl, .cpu_dsra, .cpu_dsll32, .cpu_dsrl32, .cpu_dsra32,
      .cpu_add, .cpu_addu, .cpu_sub, .cpu_subu,
      .cpu_and, .cpu_or, .cpu_slt, .cpu_sltu,
      .cpu_tge, .cpu_tgeu, .cpu_tlt, .cpu_tltu, .cpu_teq, .cpu_tne,
      .cpu_beq, .cpu_bne,
      .cpu_addi, .cpu_addiu, .cpu_slti, .cpu_sltiu,
      .cpu_andi, .cpu_ori, .cpu_xori, .cpu_lui,
      .cpu_mfc0, .cpu_mtc0, .cpu_cfc0, .cpu_ctc0,
      .cpu_mfc1, .cpu_mtc1, .cpu_dmfc1, .cpu_dmtc1, .cpu_cfc1, .cpu_ctc1,
      .cpu_lb, .cpu_lh, .cpu_lw, .cpu_lbu, .cpu_lhu, .cpu_lwu, .cpu_ld,
      .cpu_ll, .cpu_lld,
      .cpu_sb, .cpu_sh, .cpu_sw, .cpu_sd, .cpu_sc, .cpu_scd])
  | .cpu_rd => decide (id ∈ [InstrId.cpu_sll, .cpu_srl, .cpu_sra,
      .cpu_dsll, .cpu_dsrl, .cpu_dsra, .cpu_dsll32, .cpu_dsrl32, .cpu_dsra32,
      .cpu_add, .cpu_addu, .cpu_sub, .cpu_subu,
      .cpu_and, .cpu_or, .cpu_slt, .cpu_sltu,
      .cpu_jalr, .cpu_mfhi, .cpu_mflo])
  | .cpu_fs => decide (id ∈ [InstrId.cpu_mfc1, .cpu_mtc1, .cpu_dmfc1, .cpu_dmtc1])
  | .cpu_ft => decide (id ∈ [InstrId.cpu_lwc1, .cpu_ldc1, .cpu_swc1, .cpu_sdc1])
  | .cpu_fd => false

end CpuInstr

namespace RspInstr

/-- Modelled from the spec: the RSP view's unique-id decode.  The RSP shares
the base MIPS encodings; opcodes absent from its ISA still decode to the ids
the engine's rejection lists name (lwc1, swc1, cache, ctc0, cfc0), and the
LWC2/SWC2 opcodes carry the vector loads and stores. -/
def getUniqueId (w : Nat) : InstrId :=
  if w % 2 ^ 32 = 0 then .rsp_nop else
  match opcodeField w with
  | 0 =>
    match functField w with
    | 8 => .rsp_jr
    | _ => .rsp_INVALID
  | 9 => .rsp_addiu
  | 16 =>
    match rsField w with
    | 0 => .rsp_mfc0 | 2 => .cpu_cfc0 | 4 => .rsp_mtc0 | 6 => .cpu_ctc0
    | _ => .rsp_INVALID
  | 35 => .rsp_lw
  | 43 => .rsp_sw
  | 47 => .rsp_cache
  | 49 => .rsp_lwc1
  | 50 => .rsp_lqv
  | 57 => .rsp_swc1
  | 58 => .rsp_sqv
  | _ => .rsp_INVALID

/-- Modelled from the spec: the RSP view's reserved-bit validity flag. -/
def isValid (w : Nat) : Bool :=
  match getUniqueId w with
  | .rsp_INVALID => false
  | .rsp_nop => true
  | .rsp_jr => decide (rtField w = 0 ∧ rdField w = 0 ∧ saField w = 0)
  | .rsp_mfc0 | .rsp_mtc0 | .cpu_cfc0 | .cpu_ctc0 => decide (w % 2 ^ 11 = 0)
  | _ => true

/-- Modelled from the spec: does the RSP instruction load from memory. -/
def doesLoad (w : Nat) : Bool :=
  match getUniqueId w with
  | .rsp_lw | .rsp_lwc1 | .rsp_lqv => true
  | _ => false

/-- Modelled from the spec: does the RSP instruction store to memory. -/
def doesStore (w : Nat) : Bool :=
  match getUniqueId w with
  | .rsp_sw | .rsp_swc1 | .rsp_sqv => true
  | _ => false

/-- Modelled from the spec: does the RSP instruction write the rd register. -/
def modifiesRd (_w : Nat) : Bool := false

/-- Modelled from the spec: does the RSP instruction write the rt register. -/
def modifiesRt (w : Nat) : Bool :=
  match getUniqueId w with
  | .rsp_addiu | .rsp_lw | .rsp_mfc0 | .cpu_cfc0 => true
  | _ => false

/-- O32 rd accessor in the RSP view. -/
def GetO32_rd (w : Nat) : Nat := rdField w

/-- O32 rt accessor in the RSP view. -/
def GetO32_rt (w : Nat) : Nat := rtField w

end RspInstr

/-- Translation of `RomRegion` (include/findcode.h); regions are constructed
with `has_rsp = false`. -/
structure RomRegion where
  rom_start : Nat
  rom_end : Nat
  has_rsp : Bool
deriving DecidableEq

/-- Translation of `instruction_size` (include/findcode.h). -/
def instruction_size : Nat := 4

/-- Translation of `microcode_check_threshold` (include/findcode.h). -/
def microcode_check_threshold : Nat := 1024 * instruction_size

/-- Translation of `jr_ra` (src/findcode.cpp line 10). -/
def jr_ra : Nat := 0x03E00008

/-- Translation of `invalid_cop0_register` (src/findcode.cpp lines 37-39). -/
def invalid_cop0_register (reg : Nat) : Bool :=
  decide (reg = 7 ∨ (21 ≤ reg ∧ reg ≤ 25) ∨ reg = 31)

/-- Translation of `is_unused_n64_instruction` (src/findcode.cpp lines 41-48,
the authoritative complete list). -/
def is_unused_n64_instruction (id : InstrId) : Bool :=
  decide (id = .cpu_ll ∨ id = .cpu_sc ∨ id = .cpu_lld ∨ id = .cpu_scd ∨
    id = .cpu_syscall)

/-- Translation of `is_valid` (src/findcode.cpp lines 51-124).  The source's
locals (`id`, `instr_is_store`, `instr_is_gpr_load`, `instr_is_fpr_load`) are
inlined. -/
def is_valid (w : Nat) : Bool :=
  if CpuInstr.isValid w = false ∨ CpuInstr.getUniqueId w = .cpu_INVALID then false
  else if (CpuInstr.doesStore w || (CpuInstr.doesLoad w && !CpuInstr.isFloat w) ||
      (CpuInstr.doesLoad w && CpuInstr.isFloat w)) = true ∧
      CpuInstr.GetO32_rs w = 0 then false
  else if CpuInstr.modifiesRd w = true ∧ CpuInstr.GetO32_rd w = 0 then false
  else if CpuInstr.modifiesRt w = true ∧ CpuInstr.GetO32_rt w = 0 then false
  else if (CpuInstr.getUniqueId w = .cpu_mtc0 ∨ CpuInstr.getUniqueId w = .cpu_mfc0) ∧
      invalid_cop0_register (CpuInstr.GetO32_rd w) = true then false
  else if is_unused_n64_instruction (CpuInstr.getUniqueId w) = true then false
  else if CpuInstr.getUniqueId w = .cpu_cache ∧
      (CpuInstr.Get_op w >>> 2 > 6 ∨ CpuInstr.Get_op w % 4 > 1) then false
  else if CpuInstr.getUniqueId w = .cpu_lwc2 ∨ CpuInstr.getUniqueId w = .cpu_ldc2 ∨
      CpuInstr.getUniqueId w = .cpu_swc2 ∨ CpuInstr.getUniqueId w = .cpu_sdc2 then false
  else if CpuInstr.isTrap w = true then false
  else if CpuInstr.getUniqueId w = .cpu_ctc0 ∨ CpuInstr.getUniqueId w = .cpu_cfc0
    then false
  else if CpuInstr.getUniqueId w = .cpu_pref then false
  else true

/-- Translation of `invalid_rsp_cop0_register` (src/microcode.cpp lines 7-9). -/
def invalid_rsp_cop0_register (reg : Nat) : Bool :=
  decide (reg > 15)

/-- Translation of `is_valid_rsp` (src/microcode.cpp lines 12-44); the local
`id` is inlined. -/
def is_valid_rsp (w : Nat) : Bool :=
  if RspInstr.getUniqueId w = .rsp_INVALID then false
  else if RspInstr.isValid w = false then false
  else if RspInstr.modifiesRd w = true ∧ RspInstr.GetO32_rd w = 0 then false
  else if RspInstr.modifiesRt w = true ∧ RspInstr.GetO32_rt w = 0 then false
  else if (RspInstr.getUniqueId w = .rsp_mtc0 ∨ RspInstr.getUniqueId w = .rsp_mfc0) ∧
      invalid_rsp_cop0_register (RspInstr.GetO32_rd w) = true then false
  else if RspInstr.getUniqueId w = .rsp_lwc1 ∨ RspInstr.getUniqueId w = .rsp_swc1 ∨
      RspInstr.getUniqueId w = .cpu_ctc0 ∨ RspInstr.getUniqueId w = .cpu_cfc0 ∨
      RspInstr.getUniqueId w = .rsp_cache then false
  else true

/-- Translation of `weak_uninitialized_check` (src/analysis.cpp line 18). -/
def weak_uninitialized_check : Bool := true

/-- The GPR abstract state built by `count_invalid_start_instructions`
(src/analysis.cpp lines 176-197): $zero, $sp, $ra, $a0-$a3 and (under the weak
check) $v0 are marked initialized. -/
def gpr_reg_states_init : Nat → Bool := fun r =>
  decide (r = 0 ∨ r = 29 ∨ r = 31 ∨ r = 4 ∨ r = 5 ∨ r = 6 ∨ r = 7) ||
    (weak_uninitialized_check && decide (r = 2))

/-- The FPR abstract state built by `count_invalid_start_instructions`
(src/analysis.cpp lines 199-211).  The source lines merely index the
value-initialized array (`fpr_reg_states[...];`) without assigning
`.initialized = true`, so every FPR remains uninitialized. -/
def fpr_reg_states_init : Nat → Bool := fun _ => false

/-- Translation of `has_operand_input` (src/analysis.cpp lines 21-48). -/
def has_operand_input (w : Nat) (operand : OperandType) : Bool :=
  let id := CpuInstr.getUniqueId w
  if CpuInstr.hasOperandAlias w operand then
    match operand with
    | .cpu_rd => !CpuInstr.modifiesRd w
    | .cpu_rt => !CpuInstr.modifiesRt w
    | .cpu_rs => true
    | .cpu_fd => false
    | .cpu_ft => decide (id ≠ .cpu_lwc1 ∧ id ≠ .cpu_ldc1)
    | .cpu_fs => decide (id ≠ .cpu_mtc1 ∧ id ≠ .cpu_dmtc1)
  else false

/-- Translation of `has_zero_output` (src/analysis.cpp lines 51-64). -/
def has_zero_output (w : Nat) : Bool :=
  let rd := CpuInstr.GetO32_rd w
  let rt := CpuInstr.GetO32_rt w
  if CpuInstr.modifiesRd w = true ∧ rd = 0 then true
  else if CpuInstr.modifiesRt w = true ∧ rt = 0 then true
  else false

/-- Translation of `references_uninitialized` (src/analysis.cpp lines 67-105). -/
def references_uninitialized (w : Nat) (gpr_reg_states fpr_reg_states : Nat → Bool) :
    Bool :=
  let rs := CpuInstr.GetO32_rs w
  let rd := CpuInstr.GetO32_rd w
  let rt := CpuInstr.GetO32_rt w
  let fs := CpuInstr.GetO32_fs w
  let fd := CpuInstr.GetO32_fd w
  let ft := CpuInstr.GetO32_ft w
  (has_operand_input w .cpu_rs && !gpr_reg_states rs) ||
  (has_operand_input w .cpu_rd && !gpr_reg_states rd) ||
  (has_operand_input w .cpu_rt && !gpr_reg_states rt) ||
  (has_operand_input w .cpu_fs && !fpr_reg_states fs) ||
  (has_operand_input w .cpu_fd && !fpr_reg_states fd) ||
  (has_operand_input w .cpu_ft && !fpr_reg_states ft)

/-- Translation of `is_invalid_start_instruction` (src/analysis.cpp lines
108-172). -/
def is_invalid_start_instruction (w : Nat)
    (gpr_reg_states fpr_reg_states : Nat → Bool) : Bool :=
  let id := CpuInstr.getUniqueId w
  if id = .cpu_nop then true
  else if is_valid w = false then true
  else if has_zero_output w = true then true
  else if references_uninitialized w gpr_reg_states fpr_reg_states = true then true
  else if id = .cpu_b ∨ id = .cpu_j then true
  else if id = .cpu_jal ∨ id = .cpu_jalr then true
  else if id = .cpu_jr ∧ CpuInstr.GetO32_rs w = 0 then true
  else if (id = .cpu_sll ∨ id = .cpu_srl ∨ id = .cpu_sra ∨
      id = .cpu_dsll ∨ id = .cpu_dsll32 ∨ id = .cpu_dsrl ∨
      id = .cpu_dsrl32 ∨ id = .cpu_dsra ∨ id = .cpu_dsra32) ∧
      (CpuInstr.GetO32_rt w = 0 ∧ CpuInstr.Get_sa w ≠ 0) then true
  else if id = .cpu_mthi ∨ id = .cpu_mtlo then true
  else if id = .cpu_bc1t ∨ id = .cpu_bc1f ∨ id = .cpu_bc1tl ∨ id = .cpu_bc1fl then true
  else if id = .cpu_add ∨ id = .cpu_sub then true
  else false

/-- The scanning loop of `count_invalid_start_instructions` (src/analysis.cpp
lines 213-224): reads the word at `instruction_size * instr_index + rom_start`
and advances while the instruction is an invalid start.  The loop has no bound
of its own; a read past the span surfaces as `.error ()`. -/
def count_loop (rom : Rom) (rom_start idx : Nat) : Except Unit Nat :=
  match h : read32 rom (instruction_size * idx + rom_start) with
  | none => .error ()
  | some w =>
    if is_invalid_start_instruction w gpr_reg_states_init fpr_reg_states_init then
      count_loop rom rom_start (idx + 1)
    else
      .ok idx
termination_by rom.size - (instruction_size * idx + rom_start)
decreasing_by
  have hb : instruction_size * idx + rom_start + 4 ≤ rom.size := by
    unfold read32 at h
    split at h
    · assumption
    · exact absurd h (by simp)
  simp only [instruction_size] at *
  omega

/-- Translation of `count_invalid_start_instructions` (src/analysis.cpp lines
175-227). -/
def count_invalid_start_instructions (region : RomRegion) (rom : Rom) :
    Except Unit Nat :=
  count_loop rom region.rom_start 0

/-- The scanning loop of `find_return_locations` (src/findcode.cpp lines
13-34): walks from `0x1000` in 4-byte steps; at each `jr $ra` word it reads
the delay-slot word and keeps the address when that word is CPU- or RSP-valid. -/
def frl_loop (rom : Rom) (rom_addr : Nat) : Except Unit (List Nat) :=
  if rom_addr < rom.size then
    match read32 rom rom_addr with
    | none => .error ()
    | some rom_word =>
      if rom_word = jr_ra then
        match read32 rom (rom_addr + instruction_size) with
        | none => .error ()
        | some next_word =>
          if is_valid next_word || is_valid_rsp next_word then
            match frl_loop rom (rom_addr + instruction_size) with
            | .error e => .error e
            | .ok rest => .ok (rom_addr :: rest)
          else
            frl_loop rom (rom_addr + instruction_size)
      else
        frl_loop rom (rom_addr + instruction_size)
  else
    .ok []
termination_by rom.size - rom_addr
decreasing_by
  all_goals simp only [instruction_size]; omega

/-- Translation of `find_return_locations` (src/findcode.cpp lines 13-34). -/
def find_return_locations (rom : Rom) : Except Unit (List Nat) :=
  frl_loop rom 0x1000

/-- Translation of `find_code_start` (src/findcode.cpp lines 127-140):
searches backwards from `rom_addr` until an invalid instruction, clamped at
`0x1000`. -/
def find_code_start (rom : Rom) (rom_addr : Nat) : Except Unit Nat :=
  if rom_addr > 0x1000 then
    match read32 rom (rom_addr - instruction_size) with
    | none => .error ()
    | some w =>
      if is_valid w = false then .ok rom_addr
      else find_code_start rom (rom_addr - instruction_size)
  else
    .ok rom_addr
termination_by rom_addr - 0x1000
decreasing_by
  simp only [instruction_size]; omega

/-- Translation of `find_code_end` (src/findcode.cpp lines 143-155): searches
forwards from `rom_addr` until an invalid instruction.  The C++ loop's only
guard is `rom_addr > 0`; there is no upper bound, so the walk can run past the
span, which surfaces here as `.error ()`. -/
def find_code_end (rom : Rom) (rom_addr : Nat) : Except Unit Nat :=
  if rom_addr > 0 then
    match h : read32 rom rom_addr with
    | none => .error ()
    | some w =>
      if is_valid w = false then .ok rom_addr
      else find_code_end rom (rom_addr + instruction_size)
  else
    .ok rom_addr
termination_by rom.size + 4 - rom_addr
decreasing_by
  have hb : rom_addr + 4 ≤ rom.size := by
    unfold read32 at h
    split at h
    · assumption
    · exact absurd h (by simp)
  simp only [instruction_size]
  omega

/-- Translation of `is_unconditional_branch` (src/findcode.cpp lines 158-163). -/
def is_unconditional_branch (instruction_word : Nat) : Bool :=
  let id := CpuInstr.getUniqueId instruction_word
  decide (id = .cpu_b ∨ id = .cpu_j ∨ id = .cpu_jr)

/-- The leading-nop strip loop of `trim_region` (src/findcode.cpp lines
174-176): the C++ condition `read32(rom_bytes, start) == 0 && end > start`
performs the read before testing the bound. -/
def zero_loop (rom : Rom) (e start : Nat) : Except Unit Nat :=
  match read32 rom start with
  | none => .error ()
  | some w =>
    if w = 0 ∧ start < e then zero_loop rom e (start + instruction_size)
    else .ok start
termination_by e - start
decreasing_by
  simp only [instruction_size]; omega

/-- The tail-trim loop of `trim_region` (src/findcode.cpp lines 181-183):
reads the word two instructions before the end (a size_t subtraction) and
retreats until it is an unconditional non-linking branch or the region is
exhausted. -/
def end_loop (rom : Rom) (start e : Nat) : Except Unit Nat :=
  match h : read32 rom (sub64 e (2 * instruction_size)) with
  | none => .error ()
  | some w =>
    if is_unconditional_branch w = false ∧ start < e then
      end_loop rom start (sub64 e instruction_size)
    else .ok e
termination_by e - start
decreasing_by
  have hb : sub64 e (2 * instruction_size) + 4 ≤ rom.size := by
    unfold read32 at h
    split at h
    · assumption
    · exact absurd h (by simp)
  have hs := rom.hsize
  simp only [sub64, instruction_size] at *
  split at hb
  · split
    · omega
    · omega
  · omega

/-- Translation of `trim_region` (src/findcode.cpp lines 166-187). -/
def trim_region (codeseg : RomRegion) (rom : Rom) : Except Unit RomRegion :=
  match count_invalid_start_instructions codeseg rom with
  | .error e => .error e
  | .ok invalid_start_count =>
    let start0 := codeseg.rom_start + invalid_start_count * instruction_size
    match zero_loop rom codeseg.rom_end start0 with
    | .error e => .error e
    | .ok start1 =>
      match end_loop rom start1 codeseg.rom_end with
      | .error e => .error e
      | .ok end1 => .ok { codeseg with rom_start := start1, rom_end := end1 }

/-- The scanning loop shared by `check_range_cpu` (src/findcode.cpp lines
190-217): tracks the previous word and a consecutive-identical count, rejects
on `identical_count >= 3` for loads/stores and on any invalid word. -/
def crc_loop (rom : Rom) (rom_end offset prev_word identical_count : Nat) :
    Except Unit Bool :=
  if offset < rom_end then
    match read32 rom offset with
    | none => .error ()
    | some cur_word =>
      let prev2 := if cur_word = prev_word then prev_word else cur_word
      let cnt2 := if cur_word = prev_word then identical_count + 1 else 0
      if cnt2 ≥ 3 ∧ (CpuInstr.doesLoad cur_word || CpuInstr.doesStore cur_word) = true
        then .ok false
      else if is_valid cur_word = false then .ok false
      else crc_loop rom rom_end (offset + instruction_size) prev2 cnt2
  else
    .ok true
termination_by rom_end - offset
decreasing_by
  simp only [instruction_size]; omega

/-- Translation of `check_range_cpu` (src/findcode.cpp lines 190-217). -/
def check_range_cpu (rom_start rom_end : Nat) (rom : Rom) : Except Unit Bool :=
  crc_loop rom rom_end rom_start 0xFFFFFFFF 0

/-- The scanning loop of `check_range_rsp` (src/microcode.cpp lines 47-71),
identical in shape to the CPU one but using the RSP view. -/
def crr_loop (rom : Rom) (rom_end offset prev_word identical_count : Nat) :
    Except Unit Bool :=
  if offset < rom_end then
    match read32 rom offset with
    | none => .error ()
    | some cur_word =>
      let prev2 := if cur_word = prev_word then prev_word else cur_word
      let cnt2 := if cur_word = prev_word then identical_count + 1 else 0
      if cnt2 ≥ 3 ∧ (RspInstr.doesLoad cur_word || RspInstr.doesStore cur_word) = true
        then .ok false
      else if is_valid_rsp cur_word = false then .ok false
      else crr_loop rom rom_end (offset + instruction_size) prev2 cnt2
  else
    .ok true
termination_by rom_end - offset
decreasing_by
  simp only [instruction_size]; omega

/-- Translation of `check_range_rsp` (src/microcode.cpp lines 47-71). -/
def check_range_rsp (rom_start rom_end : Nat) (rom : Rom) : Except Unit Bool :=
  crr_loop rom rom_end rom_start 0xFFFFFFFF 0

/-- The iterator-advance loops of `find_code_regions`: skip every return site
below the bound. -/
def skip_returns : List Nat → Nat → List Nat
  | [], _ => []
  | a :: rest, bound => if a < bound then skip_returns rest bound else a :: rest

/-- The RSP tail-extension loop of `find_code_regions` (src/findcode.cpp lines
261-263): advance the end while it is below the span size and the next word is
a valid RSP instruction. -/
def rsp_extend_loop (rom : Rom) (e : Nat) : Except Unit Nat :=
  if e < rom.size then
    match read32 rom e with
    | none => .error ()
    | some w =>
      if is_valid_rsp w then rsp_extend_loop rom (e + instruction_size)
      else .ok e
  else
    .ok e
termination_by rom.size - e
decreasing_by
  simp only [instruction_size]; omega

/-- The merge step of `find_code_regions` (src/findcode.cpp lines 237-255),
acting on the accumulated regions with the most recent first: when the new
region is close enough to its predecessor (a size_t gap below the microcode
threshold), a CPU-valid gap merges the two, and otherwise an RSP-valid gap
merges them and flags the predecessor as microcode. -/
def merge_step (rom : Rom) (trimmed : RomRegion) (ret : List RomRegion) :
    Except Unit (List RomRegion) :=
  match ret with
  | [] => .ok [trimmed]
  | prev :: more =>
    if sub64 trimmed.rom_start prev.rom_end < microcode_check_threshold then
      match check_range_cpu prev.rom_end trimmed.rom_start rom with
      | .error e => .error e
      | .ok valid_range =>
        if valid_range then
          .ok ({ prev with rom_end := trimmed.rom_end } :: more)
        else
          match check_range_rsp prev.rom_end trimmed.rom_start rom with
          | .error e => .error e
          | .ok valid_range2 =>
            if valid_range2 then
              .ok ({ prev with has_rsp := true, rom_end := trimmed.rom_end } :: more)
            else
              .ok (trimmed :: prev :: more)
    else
      .ok (trimmed :: prev :: more)

/-- The driver loop of `find_code_regions` (src/findcode.cpp lines 220-276).
The accumulated regions are kept most recent first (the reverse of the C++
vector) so that `back`, `pop_back` and `ret[size-2]` are the head and the
second element; the final result is reversed back.  The C++ `while` loop has
no fuel, but every iteration consumes at least one return site, so a fuel of
one per return site suffices; exhausting it (impossible for the lists the
scanner produces) is reported as an error. -/
def driver_loop (rom : Rom) : Nat → List Nat → List RomRegion →
    Except Unit (List RomRegion)
  | _, [], ret => .ok ret.reverse
  | 0, _ :: _, _ => .error ()
  | fuel + 1, it :: rest, ret =>
    match find_code_start rom it with
    | .error e => .error e
    | .ok region_start =>
      match find_code_end rom it with
      | .error e => .error e
      | .ok region_end =>
        let returns1 := skip_returns (it :: rest) region_end
        match trim_region ⟨region_start, region_end, false⟩ rom with
        | .error e => .error e
        | .ok trimmed =>
          match merge_step rom trimmed ret with
          | .error e => .error e
          | .ok ret2 =>
            match ret2 with
            | [] => .error ()
            | back :: more2 =>
              if back.has_rsp then
                match rsp_extend_loop rom back.rom_end with
                | .error e => .error e
                | .ok e2 =>
                  match trim_region { back with rom_end := e2 } rom with
                  | .error e => .error e
                  | .ok back2 =>
                    driver_loop rom fuel (skip_returns returns1 back2.rom_end)
                      (back2 :: more2)
              else
                driver_loop rom fuel returns1 ret2

/-- Translation of `find_code_regions` (src/findcode.cpp lines 220-276). -/
def find_code_regions (rom : Rom) : Except Unit (List RomRegion) :=
  match find_return_locations rom with
  | .error e => .error e
  | .ok return_addrs => driver_loop rom return_addrs.length return_addrs []

/-- A ROM holding the spec's minimal function at 0x1000 (addiu $sp,$sp,-8;
sw $ra,0($sp); lw $ra,0($sp); jr $ra; addiu $sp,$sp,8) in a zero-filled
0x1020-byte image. -/
def romMinimalFn : Rom :=
  romOfWords 0x1020
    [(0x1000, 0x27BDFFF8), (0x1004, 0xAFBF0000), (0x1008, 0x8FBF0000),
     (0x100C, jr_ra), (0x1010, 0x27BD0008)]
    (by norm_num)

/-- A ROM whose final scanned word is a bare `jr $ra`: the scanner must read
its delay slot, one word past the end of the span. -/
def romTailJr : Rom :=
  romOfWords 0x1004 [(0x1000, jr_ra)] (by norm_num)

/-- An all-zero ROM of 0x1008 bytes: every word is a nop, which the start
analyzer rejects, so its scan runs past the end of the span. -/
def romAllZero : Rom :=
  romOfWords 0x1008 [] (by norm_num)

/-- A ROM with four identical store words (sw $t0,0($sp)) from 0x1000. -/
def romStores : Rom :=
  romOfWords 0x1014
    [(0x1000, 0xAFA80000), (0x1004, 0xAFA80000), (0x1008, 0xAFA80000),
     (0x100C, 0xAFA80000)]
    (by norm_num)

/-- A ROM exercising the RSP merge and tail-extension path: two CPU functions
separated by RSP-only vector loads, followed by a third function whose
backward growth re-enters the extended region.  Word map:
0x1000 addiu $t0,$a0,1; 0x1004 jr $ra; 0x1008 addiu $t1,$a0,2;
0x100C-0x1030 ten distinct lqv words (RSP-valid, CPU-invalid);
0x1034 addiu; 0x1038 jr $ra; 0x103C addiu; 0x1040 lqv;
0x1044 jr $ra; 0x1048 addiu; 0x104C addiu;
0x1050 lwc1 $f4,0($a0) (CPU-valid, RSP-invalid);
0x1054 addiu; 0x1058 jr $ra; 0x105C addiu; 0x1060 invalid stopper. -/
def romRspOverlap : Rom :=
  romOfWords 0x1064
    [(0x1000, 0x24880001), (0x1004, jr_ra), (0x1008, 0x24890002),
     (0x100C, 0xCBA20000), (0x1010, 0xCBA20004), (0x1014, 0xCBA20008),
     (0x1018, 0xCBA2000C), (0x101C, 0xCBA20010), (0x1020, 0xCBA20014),
     (0x1024, 0xCBA20018), (0x1028, 0xCBA2001C), (0x102C, 0xCBA20020),
     (0x1030, 0xCBA20024),
     (0x1034, 0x24880001), (0x1038, jr_ra), (0x103C, 0x24890002),
     (0x1040, 0xCBA20028),
     (0x1044, jr_ra), (0x1048, 0x248A0003), (0x104C, 0x248B0004),
     (0x1050, 0xC4840000),
     (0x1054, 0x248C0005), (0x1058, jr_ra), (0x105C, 0x248D0006),
     (0x1060, 0x4C000000)]
    (by norm_num)

/-- The invariant every emitted region satisfies: bounds inside
[0x1000, size], 4-byte alignment, an ordered pair, and an acceptable
instruction word at its start (the start-boundary analyzer stopped there). -/
def RegionP (rom : Rom) (r : RomRegion) : Prop :=
  0x1000 ≤ r.rom_start ∧ r.rom_start ≤ r.rom_end ∧ r.rom_end ≤ rom.size ∧
  r.rom_start % 4 = 0 ∧ r.rom_end % 4 = 0 ∧
  ∃ w, read32 rom r.rom_start = some w ∧
    is_invalid_start_instruction w gpr_reg_states_init fpr_reg_states_init = false

/-- The ordering relation between a newer region and the older region just
before it: when the older region carries no microcode flag, the two are
disjoint and in strictly increasing start order. -/
def Rrel (newer older : RomRegion) : Prop :=
  older.has_rsp = false →
    older.rom_end ≤ newer.rom_start ∧ older.rom_start < newer.rom_start

/-- What the scanner guarantees about the return-site list: strictly sorted,
and every entry is an aligned in-bounds `jr $ra` site at or above 0x1000. -/
def ReturnsInv (rom : Rom) (returns : List Nat) : Prop :=
  List.Pairwise (· < ·) returns ∧
  ∀ a ∈ returns, 0x1000 ≤ a ∧ a % 4 = 0 ∧ read32 rom a = some jr_ra

/-- The driver-loop invariant tying the most recent region to the remaining
return sites: a microcode-flagged region only promises that the remaining
sites lie at or past its end, while an unflagged region also owns a
CPU-invalid word at or past its end and below every remaining site (the
stop word of its `find_code_end` walk). -/
def BackInv (rom : Rom) (back : RomRegion) (returns : List Nat) : Prop :=
  (back.has_rsp = true → ∀ a ∈ returns, back.rom_end ≤ a) ∧
  (back.has_rsp = false → ∃ E wE, 0x1004 ≤ E ∧ E % 4 = 0 ∧ back.rom_end ≤ E ∧
    read32 rom E = some wE ∧ is_valid wE = false ∧ ∀ a ∈ returns, E ≤ a)

/-- The full loop invariant on the accumulated (most recent first) regions. -/
def RetInv (rom : Rom) (ret : List RomRegion) (returns : List Nat) : Prop :=
  List.Chain' Rrel ret ∧ (∀ r ∈ ret, RegionP rom r) ∧
  ∀ back ∈ ret.head?, BackInv rom back returns

/-- The regions the engine returns on `romRspOverlap`. -/
def romRspOverlapRegions : List RomRegion :=
  [⟨0x1000, 0x104C, true⟩, ⟨0x1044, 0x1060, false⟩]

theorem read32_bound {rom : Rom} {o w : Nat} (h : read32 rom o = some w) :
    o + 4 ≤ rom.size := by
  unfold read32 at h
  split at h
  · assumption
  · exact absurd h (by simp)

theorem read32_of_le {rom : Rom} {o : Nat} (h : o + 4 ≤ rom.size) :
    read32 rom o = some (rom.byte o % 256 + 256 * (rom.byte (o + 1) % 256) +
      65536 * (rom.byte (o + 2) % 256) + 16777216 * (rom.byte (o + 3) % 256)) := by
  unfold read32
  simp [h]

/-- The word `jr $ra` is a valid CPU instruction. -/
theorem is_valid_jr_ra : is_valid jr_ra = true := by decide

/-- The word `jr $ra` passes every start-instruction check of the analyzer. -/
theorem jr_ra_acceptable :
    is_invalid_start_instruction jr_ra gpr_reg_states_init fpr_reg_states_init
      = false := by decide

/-- The zero word decodes to nop and is rejected as a start instruction under
any abstract register state. -/
theorem zero_invalid_start (g f : Nat → Bool) :
    is_invalid_start_instruction 0 g f = true := rfl

/-- C1: the start-boundary analyzer's FPR state does not in fact mark
$fa0/$fa0f/$fa1/$fa1f/$fv0/$fv0f initialized: the source lines (analysis.cpp
202-210) index the zero-initialized array without assigning, so the head
instruction mfc1 $t0,$fa0 (0x44086000), whose only register input is the
floating-point argument register $fa0 ($f12), is rejected by the
uninitialized-register rule, contrary to the claim. -/
theorem C1_fpr_states_not_initialized :
    CpuInstr.getUniqueId 0x44086000 = .cpu_mfc1 ∧
    CpuInstr.GetO32_fs 0x44086000 = 12 ∧
    fpr_reg_states_init 12 = false ∧
    references_uninitialized 0x44086000 gpr_reg_states_init fpr_reg_states_init
      = true ∧
    is_invalid_start_instruction 0x44086000 gpr_reg_states_init
      fpr_reg_states_init = true := by
  decide

set_option maxHeartbeats 1000000 in
/-- A word `is_valid` accepts is never one of the unused-on-N64 opcodes:
every branch of the validator before that check already returns false. -/
theorem is_valid_not_unused {w : Nat} (h : is_valid w = true) :
    is_unused_n64_instruction (CpuInstr.getUniqueId w) = false := by
  unfold is_valid at h
  repeat' split at h
  any_goals exact Bool.noConfusion h
  all_goals simp_all

/-- C7: the CPU validator rejects every word whose decoded opcode is ll, sc,
lld, scd or syscall. -/
theorem C7_unused_opcodes_rejected (w : Nat)
    (h : CpuInstr.getUniqueId w = .cpu_ll ∨ CpuInstr.getUniqueId w = .cpu_sc ∨
      CpuInstr.getUniqueId w = .cpu_lld ∨ CpuInstr.getUniqueId w = .cpu_scd ∨
      CpuInstr.getUniqueId w = .cpu_syscall) :
    is_valid w = false := by
  cases hv : is_valid w with
  | false => rfl
  | true =>
    have hnu := is_valid_not_unused hv
    rcases h with h | h | h | h | h <;> rw [h] at hnu <;>
      simp [is_unused_n64_instruction] at hnu

/-- Witness for C7 at the encoding of ll $t0,0($t1). -/
theorem C7_witness :
    CpuInstr.getUniqueId 0xC1280000 = .cpu_ll ∧ is_valid 0xC1280000 = false :=
  ⟨by decide, C7_unused_opcodes_rejected 0xC1280000 (Or.inl (by decide))⟩

/-- A word `is_valid_rsp` accepts never decodes (in the RSP view) to one of
the RSP-absent instructions. -/
theorem is_valid_rsp_not_absent {w : Nat} (h : is_valid_rsp w = true) :
    ¬ (RspInstr.getUniqueId w = .rsp_lwc1 ∨ RspInstr.getUniqueId w = .rsp_swc1 ∨
      RspInstr.getUniqueId w = .cpu_ctc0 ∨ RspInstr.getUniqueId w = .cpu_cfc0 ∨
      RspInstr.getUniqueId w = .rsp_cache) := by
  unfold is_valid_rsp at h
  repeat' split at h
  any_goals exact Bool.noConfusion h
  all_goals simp_all

/-- C4: the RSP validator rejects every word whose RSP decoding is lwc1, swc1,
ctc0, cfc0 or cache. -/
theorem C4_rsp_rejects_absent (w : Nat)
    (h : RspInstr.getUniqueId w = .rsp_lwc1 ∨ RspInstr.getUniqueId w = .rsp_swc1 ∨
      RspInstr.getUniqueId w = .cpu_ctc0 ∨ RspInstr.getUniqueId w = .cpu_cfc0 ∨
      RspInstr.getUniqueId w = .rsp_cache) :
    is_valid_rsp w = false := by
  cases hv : is_valid_rsp w with
  | false => rfl
  | true => exact absurd h (is_valid_rsp_not_absent hv)

/-- Witness for C4 at the encoding of lwc1 $f4,0($a0). -/
theorem C4_witness :
    RspInstr.getUniqueId 0xC4840000 = .rsp_lwc1 ∧ is_valid_rsp 0xC4840000 = false :=
  ⟨by decide, C4_rsp_rejects_absent 0xC4840000 (Or.inl (by decide))⟩

/-- The start-boundary scan stops exactly at an instruction that passes every
check: a successful count addresses an acceptable instruction at the returned
index. -/
theorem count_loop_ok (rom : Rom) (s i : Nat) :
    ∀ k, count_loop rom s i = .ok k →
    i ≤ k ∧ ∃ w, read32 rom (instruction_size * k + s) = some w ∧
      is_invalid_start_instruction w gpr_reg_states_init fpr_reg_states_init
        = false := by
  refine count_loop.induct rom s
    (fun j => ∀ k, count_loop rom s j = .ok k →
      j ≤ k ∧ ∃ w, read32 rom (instruction_size * k + s) = some w ∧
        is_invalid_start_instruction w gpr_reg_states_init fpr_reg_states_init
          = false) ?_ ?_ ?_ i
  · intro j hread k hk
    rw [count_loop] at hk
    split at hk
    · exact absurd hk (by simp)
    · simp_all
  · intro j w hread hinv ih k hk
    rw [count_loop] at hk
    split at hk
    · exact absurd hk (by simp)
    · rename_i w2 hread2
      rw [hread] at hread2
      injection hread2 with hw
      subst hw
      rw [if_pos hinv] at hk
      obtain ⟨h1, h2⟩ := ih k hk
      exact ⟨by omega, h2⟩
  · intro j w hread hinv k hk
    rw [count_loop] at hk
    split at hk
    · exact absurd hk (by simp)
    · rename_i w2 hread2
      rw [hread] at hread2
      injection hread2 with hw
      subst hw
      rw [if_neg hinv] at hk
      injection hk with hk
      subst hk
      refine ⟨le_refl _, w, hread, ?_⟩
      cases hv : is_invalid_start_instruction w gpr_reg_states_init
        fpr_reg_states_init
      · rfl
      · exact absurd hv hinv

/-- If some in-bounds instruction at or after the scan base passes every
start-instruction check, the scan terminates at or before it. -/
theorem count_loop_term (rom : Rom) (s : Nat) :
    ∀ (d i w : Nat),
    read32 rom (instruction_size * (i + d) + s) = some w →
    is_invalid_start_instruction w gpr_reg_states_init fpr_reg_states_init
      = false →
    ∃ k, k ≤ i + d ∧ count_loop rom s i = .ok k := by
  intro d
  induction d with
  | zero =>
    intro i w hread hacc
    refine ⟨i, le_refl _, ?_⟩
    rw [count_loop]
    split
    · rename_i hnone
      rw [Nat.add_zero] at hread
      rw [hread] at hnone
      exact absurd hnone (by simp)
    · rename_i w2 hread2
      rw [Nat.add_zero] at hread
      rw [hread] at hread2
      injection hread2 with hw
      subst hw
      rw [if_neg (by simp [hacc])]
  | succ d ih =>
    intro i w hread hacc
    have hbound : instruction_size * i + s + 4 ≤ rom.size := by
      have := read32_bound hread
      simp only [instruction_size] at *
      omega
    have hread0 := read32_of_le hbound
    rw [count_loop]
    split
    · rename_i hnone
      rw [hread0] at hnone
      exact absurd hnone (by simp)
    · rename_i w2 hread2
      by_cases hv : is_invalid_start_instruction w2 gpr_reg_states_init
          fpr_reg_states_init = true
      · rw [if_pos hv]
        have hread' : read32 rom (instruction_size * (i + 1 + d) + s) = some w := by
          have : i + 1 + d = i + (d + 1) := by omega
          rw [this]
          exact hread
        obtain ⟨k, hk1, hk2⟩ := ih (i + 1) w hread' hacc
        exact ⟨k, by omega, hk2⟩
      · rw [if_neg hv]
        exact ⟨i, by omega, rfl⟩

set_option maxRecDepth 2000 in
/-- C10 (amended): the start-boundary analyzer terminates for every region and
ROM such that some in-bounds instruction at or after the region start passes
every start-instruction check; the count it returns is at most the index of
that instruction. -/
theorem C10_amended (rom : Rom) (region : RomRegion) (m w : Nat)
    (hread : read32 rom (instruction_size * m + region.rom_start) = some w)
    (hacc : is_invalid_start_instruction w gpr_reg_states_init
      fpr_reg_states_init = false) :
    ∃ k, k ≤ m ∧ count_invalid_start_instructions region rom = .ok k := by
  unfold count_invalid_start_instructions
  have h := count_loop_term rom region.rom_start m 0 w (by simpa using hread) hacc
  simpa using h

/-- Witness for C10 (amended): on `romRspOverlap` the instruction at 0x1000
is acceptable, and the analyzer indeed returns a count. -/
theorem C10_amended_witness :
    read32 romRspOverlap (instruction_size * 0 + 0x1000) = some 0x24880001 ∧
    is_invalid_start_instruction 0x24880001 gpr_reg_states_init
      fpr_reg_states_init = false ∧
    ∃ k, k ≤ 0 ∧
      count_invalid_start_instructions ⟨0x1000, 0x100C, false⟩ romRspOverlap
        = .ok k :=
  ⟨by decide, by decide,
    C10_amended romRspOverlap ⟨0x1000, 0x100C, false⟩ 0 0x24880001
      (by decide) (by decide)⟩

/-- The zero-strip loop does not move when the word at the start is nonzero. -/
theorem zero_loop_of_nonzero {rom : Rom} {s w : Nat} (e : Nat)
    (hread : read32 rom s = some w) (hw : w ≠ 0) :
    zero_loop rom e s = .ok s := by
  rw [zero_loop]
  split
  · rename_i hnone
    rw [hread] at hnone
    exact absurd hnone (by simp)
  · rename_i w2 hread2
    rw [hread] at hread2
    injection hread2 with h2
    subst h2
    rw [if_neg (by simp [hw])]

/-- The scan of the start-boundary analyzer, started at index zero on an
acceptable word, stops immediately. -/
theorem count_loop_zero {rom : Rom} {s w : Nat} (hread : read32 rom s = some w)
    (hacc : is_invalid_start_instruction w gpr_reg_states_init
      fpr_reg_states_init = false) :
    count_loop rom s 0 = .ok 0 := by
  have hs : instruction_size * 0 + s = s := by simp
  rw [count_loop, hs]
  split
  · rename_i hnone
    rw [hread] at hnone
    exact absurd hnone (by simp)
  · rename_i w2 hread2
    rw [hread] at hread2
    injection hread2 with hw
    subst hw
    rw [if_neg (by simp [hacc])]

/-- What a successful tail-trim guarantees about its result: the word two
instructions before the final end was read, and either it is an unconditional
branch or the region is exhausted. -/
theorem end_loop_post (rom : Rom) (s e : Nat) :
    ∀ e2, end_loop rom s e = .ok e2 →
    ∃ w, read32 rom (sub64 e2 (2 * instruction_size)) = some w ∧
      (is_unconditional_branch w = true ∨ ¬ s < e2) := by
  refine end_loop.induct rom s
    (fun e => ∀ e2, end_loop rom s e = .ok e2 →
      ∃ w, read32 rom (sub64 e2 (2 * instruction_size)) = some w ∧
        (is_unconditional_branch w = true ∨ ¬ s < e2)) ?_ ?_ ?_ e
  · intro e hread e2 h2
    rw [end_loop] at h2
    split at h2
    · exact absurd h2 (by simp)
    · rename_i w2 hread2
      rw [hread] at hread2
      exact absurd hread2 (by simp)
  · intro e w hread hcond ih e2 h2
    rw [end_loop] at h2
    split at h2
    · exact absurd h2 (by simp)
    · rename_i w2 hread2
      rw [hread] at hread2
      injection hread2 with hw
      subst hw
      rw [if_pos hcond] at h2
      exact ih e2 h2
  · intro e w hread hcond e2 h2
    rw [end_loop] at h2
    split at h2
    · exact absurd h2 (by simp)
    · rename_i w2 hread2
      rw [hread] at hread2
      injection hread2 with hw
      subst hw
      rw [if_neg hcond] at h2
      injection h2 with h2
      subst h2
      refine ⟨w, hread, ?_⟩
      by_cases hb : is_unconditional_branch w = true
      · exact Or.inl hb
      · right
        intro hlt
        exact hcond ⟨by simpa using hb, hlt⟩

/-- The tail-trim loop is a no-op on its own result. -/
theorem end_loop_fix {rom : Rom} {s e e2 : Nat} (h : end_loop rom s e = .ok e2) :
    end_loop rom s e2 = .ok e2 := by
  obtain ⟨w, hread, hw⟩ := end_loop_post rom s e e2 h
  rw [end_loop]
  split
  · rename_i hnone
    rw [hread] at hnone
    exact absurd hnone (by simp)
  · rename_i w2 hread2
    rw [hread] at hread2
    injection hread2 with h2
    subst h2
    have hneg : ¬ (is_unconditional_branch w = false ∧ s < e2) := by
      rcases hw with hw | hw
      · intro hc
        rw [hw] at hc
        exact absurd hc.1 (by simp)
      · intro hc
        exact hw hc.2
    rw [if_neg hneg]

/-- C6: `trim_region` is idempotent on every region it succeeds on. -/
theorem C6_trim_region_idem (codeseg trimmed : RomRegion) (rom : Rom)
    (h : trim_region codeseg rom = .ok trimmed) :
    trim_region trimmed rom = .ok trimmed := by
  unfold trim_region at h
  cases hc : count_invalid_start_instructions codeseg rom with
  | error e => rw [hc] at h; exact absurd h (by simp)
  | ok cnt =>
    rw [hc] at h
    simp only at h
    cases hz : zero_loop rom codeseg.rom_end
        (codeseg.rom_start + cnt * instruction_size) with
    | error e => rw [hz] at h; exact absurd h (by simp)
    | ok start1 =>
      rw [hz] at h
      simp only at h
      cases he : end_loop rom start1 codeseg.rom_end with
      | error e => rw [he] at h; exact absurd h (by simp)
      | ok end1 =>
        rw [he] at h
        injection h with h
        -- the word at the post-count offset is acceptable and nonzero
        have hcl : count_loop rom codeseg.rom_start 0 = .ok cnt := hc
        obtain ⟨-, w, hwread, hwacc⟩ :=
          count_loop_ok rom codeseg.rom_start 0 cnt hcl
        have hoff : instruction_size * cnt + codeseg.rom_start
            = codeseg.rom_start + cnt * instruction_size := by ring
        rw [hoff] at hwread
        have hw0 : w ≠ 0 := by
          intro h0
          rw [h0, zero_invalid_start] at hwacc
          exact absurd hwacc (by simp)
        -- hence the zero-strip loop did not move
        have hz0 := zero_loop_of_nonzero codeseg.rom_end hwread hw0
        rw [hz0] at hz
        injection hz with hz
        rw [hz] at hwread
        -- so the word at start1 is the acceptable one
        subst h
        unfold trim_region
        rw [show count_invalid_start_instructions
            { codeseg with rom_start := start1, rom_end := end1 } rom = .ok 0
          from count_loop_zero hwread hwacc]
        simp only [Nat.zero_mul, Nat.add_zero]
        rw [zero_loop_of_nonzero end1 hwread hw0]
        simp only
        rw [end_loop_fix he]

/-- A successful read two instructions before `e` forces `e ≥ 8`: otherwise
the size_t subtraction wraps to an offset beyond any span. -/
theorem read_sub64_ge8 {rom : Rom} {e w : Nat}
    (h : read32 rom (sub64 e (2 * instruction_size)) = some w) : 8 ≤ e := by
  have hb := read32_bound h
  have hs := rom.hsize
  by_contra hlt
  push_neg at hlt
  simp only [sub64, instruction_size] at hb
  split at hb
  · omega
  · omega

/-- What the scanner's loop guarantees: every collected site is at or past the
scan base, aligned with it, holds the `jr $ra` word, and the list is strictly
sorted. -/
theorem frl_loop_post (rom : Rom) (a : Nat) :
    ∀ l, frl_loop rom a = .ok l →
    (∀ x ∈ l, a ≤ x ∧ x % 4 = a % 4 ∧ read32 rom x = some jr_ra) ∧
    List.Pairwise (· < ·) l := by
  refine frl_loop.induct rom
    (fun a => ∀ l, frl_loop rom a = .ok l →
      (∀ x ∈ l, a ≤ x ∧ x % 4 = a % 4 ∧ read32 rom x = some jr_ra) ∧
      List.Pairwise (· < ·) l) ?_ ?_ ?_ ?_ ?_ ?_ ?_ a
  · -- in range, read none
    intro a ha hread l hl
    rw [frl_loop, if_pos ha] at hl
    split at hl
    · exact absurd hl (by simp)
    · rename_i w2 hr2
      rw [hread] at hr2
      exact absurd hr2 (by simp)
  · -- jr word, delay read none
    intro a ha hdel hread l hl
    rw [frl_loop, if_pos ha] at hl
    split at hl
    · exact absurd hl (by simp)
    · rename_i w2 hr2
      rw [hread] at hr2
      injection hr2 with hw
      subst hw
      rw [if_pos rfl] at hl
      split at hl
      · exact absurd hl (by simp)
      · rename_i w3 hr3
        rw [hdel] at hr3
        exact absurd hr3 (by simp)
  · -- jr word, delay valid, inner recursion errors
    intro a ha nw hdel hva e hrec hread ih l hl
    rw [frl_loop, if_pos ha] at hl
    split at hl
    · exact absurd hl (by simp)
    · rename_i w2 hr2
      rw [hread] at hr2
      injection hr2 with hw
      subst hw
      rw [if_pos rfl] at hl
      split at hl
      · exact absurd hl (by simp)
      · rename_i w3 hr3
        rw [hdel] at hr3
        injection hr3 with hw3
        subst hw3
        rw [if_pos hva, hrec] at hl
        exact absurd hl (by simp)
  · -- jr word, delay valid: collect and recurse
    intro a ha nw hdel hva rest hrec hread ih l hl
    rw [frl_loop, if_pos ha] at hl
    split at hl
    · exact absurd hl (by simp)
    · rename_i w2 hr2
      rw [hread] at hr2
      injection hr2 with hw
      subst hw
      rw [if_pos rfl] at hl
      split at hl
      · exact absurd hl (by simp)
      · rename_i w3 hr3
        rw [hdel] at hr3
        injection hr3 with hw3
        subst hw3
        rw [if_pos hva, hrec] at hl
        simp only at hl
        injection hl with hl
        subst hl
        obtain ⟨hall, hpw⟩ := ih rest hrec
        constructor
        · intro x hx
          rcases List.mem_cons.mp hx with hx | hx
          · subst hx
            exact ⟨le_refl _, rfl, hread⟩
          · obtain ⟨h1, h2, h3⟩ := hall x hx
            refine ⟨by simp only [instruction_size] at h1; omega, ?_, h3⟩
            rw [h2]
            simp only [instruction_size]
            omega
        · refine List.Pairwise.cons ?_ hpw
          intro x hx
          have := (hall x hx).1
          simp only [instruction_size] at this
          omega
  · -- jr word, delay invalid: skip and recurse
    intro a ha nw hdel hva hread ih l hl
    rw [frl_loop, if_pos ha] at hl
    split at hl
    · exact absurd hl (by simp)
    · rename_i w2 hr2
      rw [hread] at hr2
      injection hr2 with hw
      subst hw
      rw [if_pos rfl] at hl
      split at hl
      · exact absurd hl (by simp)
      · rename_i w3 hr3
        rw [hdel] at hr3
        injection hr3 with hw3
        subst hw3
        rw [if_neg hva] at hl
        obtain ⟨hall, hpw⟩ := ih l hl
        refine ⟨fun x hx => ?_, hpw⟩
        obtain ⟨h1, h2, h3⟩ := hall x hx
        refine ⟨by simp only [instruction_size] at h1; omega, ?_, h3⟩
        rw [h2]
        simp only [instruction_size]
        omega
  · -- not a jr word: recurse
    intro a ha w hread hjr ih l hl
    rw [frl_loop, if_pos ha] at hl
    split at hl
    · exact absurd hl (by simp)
    · rename_i w2 hr2
      rw [hread] at hr2
      injection hr2 with hw
      subst hw
      rw [if_neg hjr] at hl
      obtain ⟨hall, hpw⟩ := ih l hl
      refine ⟨fun x hx => ?_, hpw⟩
      obtain ⟨h1, h2, h3⟩ := hall x hx
      refine ⟨by simp only [instruction_size] at h1; omega, ?_, h3⟩
      rw [h2]
      simp only [instruction_size]
      omega
  · -- past the end
    intro a ha l hl
    rw [frl_loop, if_neg ha] at hl
    injection hl with hl
    subst hl
    exact ⟨by simp, List.Pairwise.nil⟩

/-- The backward region growth stops at or below its base, keeps its
alignment, and never descends below 0x1000 from an aligned base. -/
theorem fcs_bounds (rom : Rom) (a : Nat) :
    ∀ s, find_code_start rom a = .ok s →
    s ≤ a ∧ s % 4 = a % 4 ∧ (a % 4 = 0 ∧ 0x1000 ≤ a → 0x1000 ≤ s) := by
  refine find_code_start.induct rom
    (fun a => ∀ s, find_code_start rom a = .ok s →
      s ≤ a ∧ s % 4 = a % 4 ∧ (a % 4 = 0 ∧ 0x1000 ≤ a → 0x1000 ≤ s))
    ?_ ?_ ?_ ?_ a
  · intro a ha hread s hs
    rw [find_code_start, if_pos ha] at hs
    split at hs
    · exact absurd hs (by simp)
    · rename_i w2 hr2
      rw [hread] at hr2
      exact absurd hr2 (by simp)
  · intro a ha w hread hinv s hs
    rw [find_code_start, if_pos ha] at hs
    split at hs
    · exact absurd hs (by simp)
    · rename_i w2 hr2
      rw [hread] at hr2
      injection hr2 with hw
      subst hw
      rw [if_pos hinv] at hs
      injection hs with hs
      subst hs
      exact ⟨le_refl _, rfl, fun h => h.2⟩
  · intro a ha w hread hinv ih s hs
    rw [find_code_start, if_pos ha] at hs
    split at hs
    · exact absurd hs (by simp)
    · rename_i w2 hr2
      rw [hread] at hr2
      injection hr2 with hw
      subst hw
      rw [if_neg hinv] at hs
      obtain ⟨h1, h2, h3⟩ := ih s hs
      simp only [instruction_size] at h1 h2 h3 ha
      refine ⟨by omega, by omega, fun hc => ?_⟩
      exact h3 (by omega)
  · intro a ha s hs
    rw [find_code_start, if_neg ha] at hs
    injection hs with hs
    subst hs
    exact ⟨le_refl _, rfl, fun h => h.2⟩

/-- The backward region growth never crosses a CPU-invalid word: if an
aligned offset below the base holds an invalid word, the result stays at
least one instruction above it. -/
theorem fcs_stop (rom : Rom) (a : Nat) :
    ∀ s E wE, find_code_start rom a = .ok s →
    read32 rom E = some wE → is_valid wE = false →
    E < a → E % 4 = a % 4 → E + 4 ≤ s := by
  refine find_code_start.induct rom
    (fun a => ∀ s E wE, find_code_start rom a = .ok s →
      read32 rom E = some wE → is_valid wE = false →
      E < a → E % 4 = a % 4 → E + 4 ≤ s) ?_ ?_ ?_ ?_ a
  · intro a ha hread s E wE hs hEr hEv hEa hE4
    rw [find_code_start, if_pos ha] at hs
    split at hs
    · exact absurd hs (by simp)
    · rename_i w2 hr2
      rw [hread] at hr2
      exact absurd hr2 (by simp)
  · intro a ha w hread hinv s E wE hs hEr hEv hEa hE4
    rw [find_code_start, if_pos ha] at hs
    split at hs
    · exact absurd hs (by simp)
    · rename_i w2 hr2
      rw [hread] at hr2
      injection hr2 with hw
      subst hw
      rw [if_pos hinv] at hs
      injection hs with hs
      subst hs
      omega
  · intro a ha w hread hinv ih s E wE hs hEr hEv hEa hE4
    rw [find_code_start, if_pos ha] at hs
    split at hs
    · exact absurd hs (by simp)
    · rename_i w2 hr2
      rw [hread] at hr2
      injection hr2 with hw
      subst hw
      rw [if_neg hinv] at hs
      have hne : E ≠ a - instruction_size := by
        intro hE
        rw [hE, hread] at hEr
        injection hEr with hEw
        rw [hEw] at hinv
        exact hinv hEv
      refine ih s E wE hs hEr hEv ?_ ?_
      · simp only [instruction_size] at hne ⊢
        omega
      · simp only [instruction_size] at ha ⊢
        omega
  · intro a ha s E wE hs hEr hEv hEa hE4
    rw [find_code_start, if_neg ha] at hs
    injection hs with hs
    subst hs
    omega

/-- What a successful forward growth guarantees: the end is at or past the
base, aligned with it, within the span, and holds a CPU-invalid word. -/
theorem fce_post (rom : Rom) (a : Nat) :
    ∀ e, find_code_end rom a = .ok e → 0 < a →
    a ≤ e ∧ e + 4 ≤ rom.size ∧ e % 4 = a % 4 ∧
    ∃ w, read32 rom e = some w ∧ is_valid w = false := by
  refine find_code_end.induct rom
    (fun a => ∀ e, find_code_end rom a = .ok e → 0 < a →
      a ≤ e ∧ e + 4 ≤ rom.size ∧ e % 4 = a % 4 ∧
      ∃ w, read32 rom e = some w ∧ is_valid w = false) ?_ ?_ ?_ ?_ a
  · intro a ha hread e he hpos
    rw [find_code_end, if_pos ha] at he
    split at he
    · exact absurd he (by simp)
    · rename_i w2 hr2
      rw [hread] at hr2
      exact absurd hr2 (by simp)
  · intro a ha w hread hinv e he hpos
    rw [find_code_end, if_pos ha] at he
    split at he
    · exact absurd he (by simp)
    · rename_i w2 hr2
      rw [hread] at hr2
      injection hr2 with hw
      subst hw
      rw [if_pos hinv] at he
      injection he with he
      subst he
      exact ⟨le_refl _, read32_bound hread, rfl, w, hread, hinv⟩
  · intro a ha w hread hinv ih e he hpos
    rw [find_code_end, if_pos ha] at he
    split at he
    · exact absurd he (by simp)
    · rename_i w2 hr2
      rw [hread] at hr2
      injection hr2 with hw
      subst hw
      rw [if_neg hinv] at he
      obtain ⟨h1, h2, h3, h4⟩ := ih e he (by simp only [instruction_size]; omega)
      simp only [instruction_size] at h1 h3
      exact ⟨by omega, h2, by omega, h4⟩
  · intro a ha e he hpos
    omega

/-- One forward step: when the word at the (positive) base is valid, the
forward growth ends at least one instruction later. -/
theorem fce_step (rom : Rom) {a e w : Nat} (hpos : 0 < a)
    (hread : read32 rom a = some w) (hval : is_valid w = true)
    (h : find_code_end rom a = .ok e) : a + 4 ≤ e := by
  rw [find_code_end, if_pos hpos] at h
  split at h
  · exact absurd h (by simp)
  · rename_i w2 hr2
    rw [hread] at hr2
    injection hr2 with hw
    subst hw
    rw [if_neg (by simp [hval])] at h
    have := (fce_post rom (a + instruction_size) e h
      (by simp only [instruction_size]; omega)).1
    simp only [instruction_size] at this
    omega

/-- Bounds of the tail-trim loop: the end only moves down, by whole
instructions, and not below the start. -/
theorem end_loop_bounds (rom : Rom) (s : Nat) :
    ∀ e e2, end_loop rom s e = .ok e2 → s ≤ e → (e - s) % 4 = 0 →
    s ≤ e2 ∧ e2 ≤ e ∧ (e - e2) % 4 = 0 := by
  intro e
  refine end_loop.induct rom s
    (fun e => ∀ e2, end_loop rom s e = .ok e2 → s ≤ e → (e - s) % 4 = 0 →
      s ≤ e2 ∧ e2 ≤ e ∧ (e - e2) % 4 = 0) ?_ ?_ ?_ e
  · intro e hread e2 h2 hse h4
    rw [end_loop] at h2
    split at h2
    · exact absurd h2 (by simp)
    · rename_i w2 hr2
      rw [hread] at hr2
      exact absurd hr2 (by simp)
  · intro e w hread hcond ih e2 h2 hse h4
    have h8 : 8 ≤ e := read_sub64_ge8 hread
    rw [end_loop] at h2
    split at h2
    · exact absurd h2 (by simp)
    · rename_i w2 hr2
      rw [hread] at hr2
      injection hr2 with hw
      subst hw
      rw [if_pos hcond] at h2
      have hsub : sub64 e instruction_size = e - 4 := by
        simp only [sub64, instruction_size]
        rw [if_pos (by omega)]
      rw [hsub] at h2 ih
      obtain ⟨hb1, hb2, hb3⟩ := ih e2 h2 (by omega) (by omega)
      exact ⟨hb1, by omega, by omega⟩
  · intro e w hread hcond e2 h2 hse h4
    rw [end_loop] at h2
    split at h2
    · exact absurd h2 (by simp)
    · rename_i w2 hr2
      rw [hread] at hr2
      injection hr2 with hw
      subst hw
      rw [if_neg hcond] at h2
      injection h2 with h2
      subst h2
      exact ⟨hse, le_refl _, by omega⟩

/-- Bounds of the RSP tail extension: the end only moves up, by whole
instructions, and never past the span size. -/
theorem rsp_extend_bounds (rom : Rom) :
    ∀ e e2, rsp_extend_loop rom e = .ok e2 →
    e ≤ e2 ∧ e2 % 4 = e % 4 ∧ (e ≤ rom.size → e2 ≤ rom.size) := by
  intro e
  refine rsp_extend_loop.induct rom
    (fun e => ∀ e2, rsp_extend_loop rom e = .ok e2 →
      e ≤ e2 ∧ e2 % 4 = e % 4 ∧ (e ≤ rom.size → e2 ≤ rom.size)) ?_ ?_ ?_ ?_ e
  · intro e he hread e2 h2
    rw [rsp_extend_loop, if_pos he] at h2
    split at h2
    · exact absurd h2 (by simp)
    · rename_i w2 hr2
      rw [hread] at hr2
      exact absurd hr2 (by simp)
  · intro e he w hread hval ih e2 h2
    rw [rsp_extend_loop, if_pos he] at h2
    split at h2
    · exact absurd h2 (by simp)
    · rename_i w2 hr2
      rw [hread] at hr2
      injection hr2 with hw
      subst hw
      rw [if_pos hval] at h2
      obtain ⟨hb1, hb2, hb3⟩ := ih e2 h2
      have hb := read32_bound hread
      simp only [instruction_size] at hb1 hb2 hb3
      refine ⟨by omega, by omega, fun _ => hb3 (by omega)⟩
  · intro e he w hread hval e2 h2
    rw [rsp_extend_loop, if_pos he] at h2
    split at h2
    · exact absurd h2 (by simp)
    · rename_i w2 hr2
      rw [hread] at hr2
      injection hr2 with hw
      subst hw
      rw [if_neg hval] at h2
      injection h2 with h2
      subst h2
      exact ⟨le_refl _, rfl, fun h => h⟩
  · intro e he e2 h2
    rw [rsp_extend_loop, if_neg he] at h2
    injection h2 with h2
    subst h2
    exact ⟨le_refl _, rfl, fun h => h⟩

/-- Skipped return lists are sublists of the original. -/
theorem skip_returns_mem : ∀ (l : List Nat) (b x : Nat),
    x ∈ skip_returns l b → x ∈ l := by
  intro l
  induction l with
  | nil => intro b x hx; simp [skip_returns] at hx
  | cons a rest ih =>
    intro b x hx
    rw [skip_returns] at hx
    by_cases hab : a < b
    · rw [if_pos hab] at hx
      exact List.mem_cons_of_mem _ (ih b x hx)
    · rw [if_neg hab] at hx
      exact hx

/-- Skipping preserves strict sortedness. -/
theorem skip_returns_pairwise : ∀ (l : List Nat) (b : Nat),
    List.Pairwise (· < ·) l → List.Pairwise (· < ·) (skip_returns l b) := by
  intro l
  induction l with
  | nil => intro b h; simpa [skip_returns] using h
  | cons a rest ih =>
    intro b h
    rw [skip_returns]
    by_cases hab : a < b
    · rw [if_pos hab]
      exact ih b (List.pairwise_cons.mp h).2
    · rw [if_neg hab]
      exact h

/-- After skipping below a bound in a sorted list, everything left is at or
past the bound. -/
theorem skip_returns_ge : ∀ (l : List Nat) (b : Nat),
    List.Pairwise (· < ·) l → ∀ x ∈ skip_returns l b, b ≤ x := by
  intro l
  induction l with
  | nil => intro b h x hx; simp [skip_returns] at hx
  | cons a rest ih =>
    intro b h x hx
    rw [skip_returns] at hx
    by_cases hab : a < b
    · rw [if_pos hab] at hx
      exact ih b (List.pairwise_cons.mp h).2 x hx
    · rw [if_neg hab] at hx
      rcases List.mem_cons.mp hx with hx | hx
      · omega
      · have := (List.pairwise_cons.mp h).1 x hx
        omega

/-- The three possible outcomes of the merge step: no merge, a CPU-gap merge,
or an RSP-gap merge (the latter flags the survivor). -/
theorem merge_step_cases (rom : Rom) (trimmed : RomRegion)
    (ret ret2 : List RomRegion) (h : merge_step rom trimmed ret = .ok ret2) :
    ret2 = trimmed :: ret ∨
    ∃ prev more, ret = prev :: more ∧
      sub64 trimmed.rom_start prev.rom_end < microcode_check_threshold ∧
      (ret2 = { prev with rom_end := trimmed.rom_end } :: more ∨
       ret2 = { prev with has_rsp := true, rom_end := trimmed.rom_end } :: more) := by
  unfold merge_step at h
  cases ret with
  | nil =>
    injection h with h
    subst h
    exact Or.inl rfl
  | cons prev more =>
    simp only at h
    by_cases hth : sub64 trimmed.rom_start prev.rom_end < microcode_check_threshold
    · rw [if_pos hth] at h
      cases hc : check_range_cpu prev.rom_end trimmed.rom_start rom with
      | error e => rw [hc] at h; exact absurd h (by simp)
      | ok v =>
        rw [hc] at h
        simp only at h
        by_cases hv : v = true
        · rw [if_pos hv] at h
          injection h with h
          subst h
          exact Or.inr ⟨prev, more, rfl, hth, Or.inl rfl⟩
        · rw [if_neg hv] at h
          cases hr : check_range_rsp prev.rom_end trimmed.rom_start rom with
          | error e => rw [hr] at h; exact absurd h (by simp)
          | ok v2 =>
            rw [hr] at h
            simp only at h
            by_cases hv2 : v2 = true
            · rw [if_pos hv2] at h
              injection h with h
              subst h
              exact Or.inr ⟨prev, more, rfl, hth, Or.inr rfl⟩
            · rw [if_neg hv2] at h
              injection h with h
              subst h
              exact Or.inl rfl
    · rw [if_neg hth] at h
      injection h with h
      subst h
      exact Or.inl rfl

/-- What a successful trim guarantees, given an acceptable instruction at an
aligned offset `p` inside the region (or at its very start): the start only
advances (never past `p`), the end only retreats (never below the start),
alignment is kept, the flag is kept, and the new start holds an acceptable
instruction. -/
theorem trim_region_ok (rom : Rom) (r trimmed : RomRegion) (p wp : Nat)
    (h : trim_region r rom = .ok trimmed)
    (hs4 : r.rom_start % 4 = 0) (he4 : r.rom_end % 4 = 0) (hp4 : p % 4 = 0)
    (hsp : r.rom_start ≤ p)
    (hread : read32 rom p = some wp)
    (hacc : is_invalid_start_instruction wp gpr_reg_states_init
      fpr_reg_states_init = false)
    (hor : p + 4 ≤ r.rom_end ∨ p = r.rom_start)
    (hse : r.rom_start ≤ r.rom_end) :
    trimmed.has_rsp = r.has_rsp ∧
    r.rom_start ≤ trimmed.rom_start ∧ trimmed.rom_start ≤ p ∧
    trimmed.rom_start % 4 = 0 ∧
    trimmed.rom_start ≤ trimmed.rom_end ∧ trimmed.rom_end ≤ r.rom_end ∧
    trimmed.rom_end % 4 = 0 ∧
    ∃ w2, read32 rom trimmed.rom_start = some w2 ∧
      is_invalid_start_instruction w2 gpr_reg_states_init fpr_reg_states_init
        = false := by
  unfold trim_region at h
  cases hc : count_invalid_start_instructions r rom with
  | error e => rw [hc] at h; exact absurd h (by simp)
  | ok cnt =>
    rw [hc] at h
    simp only at h
    have hcl : count_loop rom r.rom_start 0 = .ok cnt := hc
    -- the count cannot pass the acceptable word at p
    have hpoff : instruction_size * (0 + (p - r.rom_start) / 4) + r.rom_start
        = p := by
      simp only [instruction_size]
      omega
    obtain ⟨k, hkle, hk⟩ := count_loop_term rom r.rom_start
      ((p - r.rom_start) / 4) 0 wp (by rw [hpoff]; exact hread) hacc
    rw [hcl] at hk
    injection hk with hk
    subst hk
    -- the word where the count stopped is acceptable and nonzero
    obtain ⟨-, w2, hw2r, hw2a⟩ := count_loop_ok rom r.rom_start 0 cnt hcl
    have hoff : instruction_size * cnt + r.rom_start
        = r.rom_start + cnt * instruction_size := by ring
    rw [hoff] at hw2r
    have hw20 : w2 ≠ 0 := by
      intro h0
      rw [h0, zero_invalid_start] at hw2a
      exact absurd hw2a (by simp)
    have hz := zero_loop_of_nonzero r.rom_end hw2r hw20
    rw [hz] at h
    simp only at h
    cases he : end_loop rom (r.rom_start + cnt * instruction_size) r.rom_end with
    | error e => rw [he] at h; exact absurd h (by simp)
    | ok end1 =>
      rw [he] at h
      injection h with h
      -- start0 stays at or below p, hence at or below the end
      have hstart_le_p : r.rom_start + cnt * instruction_size ≤ p := by
        simp only [instruction_size]
        omega
      have hstart_le_e : r.rom_start + cnt * instruction_size ≤ r.rom_end := by
        rcases hor with hor | hor
        · omega
        · have hc0 : cnt = 0 := by omega
          simp only [instruction_size]
          omega
      obtain ⟨hb1, hb2, hb3⟩ := end_loop_bounds rom
        (r.rom_start + cnt * instruction_size) r.rom_end end1 he hstart_le_e
        (by simp only [instruction_size]; omega)
      subst h
      refine ⟨rfl, by simp only [instruction_size]; omega, hstart_le_p,
        by simp only [instruction_size]; omega, hb1, hb2,
        by simp only [instruction_size] at hb2 hb3 ⊢; omega, w2, hw2r, hw2a⟩

/-- Reversing a chain flips its relation. -/
theorem chain'_rev {α : Type} (R : α → α → Prop) (l : List α)
    (h : List.Chain' R l) : List.Chain' (fun a b => R b a) l.reverse := by
  rw [List.chain'_reverse]
  exact h

/-- The driver loop on an empty worklist returns the accumulated regions. -/
theorem driver_loop_nil (rom : Rom) (fuel : Nat) (ret : List RomRegion) :
    driver_loop rom fuel [] ret = .ok ret.reverse := by
  cases fuel <;> rfl

/-- The driver loop with exhausted fuel on a nonempty worklist errors. -/
theorem driver_loop_cons_zero (rom : Rom) (it : Nat) (rest : List Nat)
    (ret : List RomRegion) :
    driver_loop rom 0 (it :: rest) ret = .error () := rfl

set_option maxRecDepth 2000 in
/-- The driver loop preserves its invariant and delivers, for every ROM on
which it succeeds, the per-region bounds and the conditional ordering of the
output list. -/
theorem driver_loop_inv (rom : Rom) (fuel : Nat) :
    ∀ returns ret out,
    driver_loop rom fuel returns ret = .ok out →
    ReturnsInv rom returns → RetInv rom ret returns →
    List.Chain' (fun a b => Rrel b a) out ∧ ∀ r ∈ out, RegionP rom r := by
  induction fuel with
  | zero =>
    intro returns ret out h hri hrv
    cases returns with
    | nil =>
      rw [driver_loop_nil] at h
      injection h with h
      subst h
      exact ⟨chain'_rev Rrel ret hrv.1,
        fun r hr => hrv.2.1 r (List.mem_reverse.mp hr)⟩
    | cons it rest =>
      rw [driver_loop_cons_zero] at h
      exact absurd h (by simp)
  | succ fuel ih =>
    intro returns ret out h hri hrv
    cases returns with
    | nil =>
      rw [driver_loop_nil] at h
      injection h with h
      subst h
      exact ⟨chain'_rev Rrel ret hrv.1,
        fun r hr => hrv.2.1 r (List.mem_reverse.mp hr)⟩
    | cons it rest =>
      rw [driver_loop] at h
      cases hfcs : find_code_start rom it with
      | error e => rw [hfcs] at h; simp at h
      | ok region_start =>
      rw [hfcs] at h
      simp only at h
      cases hfce : find_code_end rom it with
      | error e => rw [hfce] at h; simp at h
      | ok region_end =>
      rw [hfce] at h
      simp only at h
      cases htrim : trim_region ⟨region_start, region_end, false⟩ rom with
      | error e => rw [htrim] at h; simp at h
      | ok trimmed =>
      rw [htrim] at h
      simp only at h
      cases hmerge : merge_step rom trimmed ret with
      | error e => rw [hmerge] at h; simp at h
      | ok ret2 =>
      rw [hmerge] at h
      simp only at h
      -- unpack the entry invariants
      obtain ⟨hpw, hprops⟩ := hri
      obtain ⟨hit1, hit4, hitr⟩ := hprops it (by simp)
      obtain ⟨hchain, hP, hback⟩ := hrv
      -- backward growth facts
      obtain ⟨hs_le, hs_mod, hs_ge⟩ := fcs_bounds rom it region_start hfcs
      have hs1000 : 0x1000 ≤ region_start := hs_ge ⟨hit4, hit1⟩
      -- forward growth facts
      obtain ⟨he_ge, he_size, he_mod, wE, hwEr, hwEv⟩ :=
        fce_post rom it region_end hfce (by omega)
      have he_ge4 : it + 4 ≤ region_end :=
        fce_step rom (by omega) hitr is_valid_jr_ra hfce
      -- trim facts, anchored at the jr site
      obtain ⟨htf, hts1, hts2, hts4, htse, hte1, hte4, w2, hw2r, hw2a⟩ :=
        trim_region_ok rom ⟨region_start, region_end, false⟩ trimmed it jr_ra
          htrim (by simp only; omega) (by simp only; omega) hit4
          (by simp only; omega) hitr jr_ra_acceptable
          (by simp only; omega) (by simp only; omega)
      simp only at htf hts1 hte1
      have hPtrim : RegionP rom trimmed :=
        ⟨by omega, htse, by omega, hts4, hte4, w2, hw2r, hw2a⟩
      -- the remaining return sites lie past the untrimmed end
      have hri1 : ReturnsInv rom (skip_returns (it :: rest) region_end) :=
        ⟨skip_returns_pairwise _ _ hpw,
         fun x hx => hprops x (skip_returns_mem _ _ _ hx)⟩
      have hret1_ge := skip_returns_ge (it :: rest) region_end hpw
      -- ordering of the new head against the previous head, when unflagged
      have hpair : ∀ prev0, prev0 ∈ ret.head? → Rrel trimmed prev0 := by
        intro prev0 hprev0
        intro hprev0f
        obtain ⟨-, hbE⟩ := hback prev0 hprev0
        obtain ⟨E, wE0, hE1, hE4, hEe, hEr, hEv, hEall⟩ := hbE hprev0f
        have hEle : E ≤ it := hEall it (by simp)
        have hElt : E < it := by
          rcases Nat.eq_or_lt_of_le hEle with hEq | hlt
          · subst hEq
            rw [hitr] at hEr
            injection hEr with hEw
            rw [← hEw] at hEv
            rw [is_valid_jr_ra] at hEv
            exact absurd hEv (by simp)
          · exact hlt
        have hstop := fcs_stop rom it region_start E wE0 hfcs hEr hEv hElt
          (by omega)
        have hP0 : RegionP rom prev0 := by
          apply hP
          cases ret with
          | nil => simp at hprev0
          | cons a l =>
            simp at hprev0
            subst hprev0
            simp
        obtain ⟨h01, h02, h03, h04, h05, h06⟩ := hP0
        exact ⟨by omega, by omega⟩
      -- the three merge outcomes
      have hmain : List.Chain' Rrel ret2 ∧ (∀ r ∈ ret2, RegionP rom r) ∧
          ∀ back ∈ ret2.head?, back.rom_end ≤ region_end := by
        rcases merge_step_cases rom trimmed ret ret2 hmerge with hcase |
          ⟨prev, more, hreteq, hth, hcase⟩
        · subst hcase
          refine ⟨?_, ?_, ?_⟩
          · cases ret with
            | nil => simp
            | cons prev0 more0 =>
              exact List.chain'_cons.mpr ⟨hpair prev0 (by simp), hchain⟩
          · intro r hr
            rcases List.mem_cons.mp hr with hr | hr
            · subst hr; exact hPtrim
            · exact hP r hr
          · intro back hb
            simp at hb
            subst hb
            exact hte1
        · subst hreteq
          have hPprev : RegionP rom prev := hP prev (by simp)
          obtain ⟨hp1, hp2, hp3, hp4m, hp5, wp0, hwp0r, hwp0a⟩ := hPprev
          -- a size_t-wrapped gap is impossible inside a span, so the merge
          -- condition forces the regions to be in order
          have hord : prev.rom_end ≤ trimmed.rom_start := by
            by_contra hlt
            push_neg at hlt
            have hsz := rom.hsize
            simp only [sub64, microcode_check_threshold, instruction_size] at hth
            split at hth
            · omega
            · omega
          have hPmerge : ∀ b : Bool,
              RegionP rom ⟨prev.rom_start, trimmed.rom_end, b⟩ := by
            intro b
            exact ⟨hp1, by simp only; omega, by simp only; omega, hp4m, hte4,
              wp0, hwp0r, hwp0a⟩
          have hchain2 : ∀ b : Bool, List.Chain' Rrel
              ((⟨prev.rom_start, trimmed.rom_end, b⟩ : RomRegion) :: more) := by
            intro b
            cases more with
            | nil => simp
            | cons q l =>
              refine List.chain'_cons.mpr ⟨?_, (List.chain'_cons.mp hchain).2⟩
              intro hqf
              exact (List.chain'_cons.mp hchain).1 hqf
          rcases hcase with hcase | hcase
          · subst hcase
            refine ⟨?_, ?_, ?_⟩
            · exact hchain2 prev.has_rsp
            · intro r hr
              rcases List.mem_cons.mp hr with hr | hr
              · subst hr
                exact hPmerge prev.has_rsp
              · exact hP r (by simp [hr])
            · intro back hb
              simp at hb
              subst hb
              exact hte1
          · subst hcase
            refine ⟨hchain2 true, ?_, ?_⟩
            · intro r hr
              rcases List.mem_cons.mp hr with hr | hr
              · subst hr
                exact hPmerge true
              · exact hP r (by simp [hr])
            · intro back hb
              simp at hb
              subst hb
              exact hte1
      obtain ⟨hchain2, hP2, hend2⟩ := hmain
      -- the remaining driver step
      cases ret2 with
      | nil => simp at h
      | cons back more2 =>
        simp only at h
        have hPback : RegionP rom back := hP2 back (by simp)
        obtain ⟨hbk1, hbk2, hbk3, hbk4, hbk5, wbk, hwbkr, hwbka⟩ := hPback
        have hbend : back.rom_end ≤ region_end := hend2 back (by simp)
        by_cases hrsp : back.has_rsp
        · rw [if_pos hrsp] at h
          cases hext : rsp_extend_loop rom back.rom_end with
          | error e => rw [hext] at h; simp at h
          | ok e2 =>
          rw [hext] at h
          simp only at h
          cases htrim2 : trim_region { back with rom_end := e2 } rom with
          | error e => rw [htrim2] at h; simp at h
          | ok back2 =>
          rw [htrim2] at h
          simp only at h
          obtain ⟨hx1, hx2, hx3⟩ := rsp_extend_bounds rom back.rom_end e2 hext
          have he2sz : e2 ≤ rom.size := hx3 hbk3
          obtain ⟨hbf, hbs1, hbs2, hbs4, hbse, hbe1, hbe4, w3, hw3r, hw3a⟩ :=
            trim_region_ok rom { back with rom_end := e2 } back2
              back.rom_start wbk htrim2 (by simp only; omega)
              (by simp only; omega) hbk4 (le_refl _)
              hwbkr hwbka (Or.inr rfl) (by simp only; omega)
          simp only at hbf hbs1 hbe1
          have hbstart : back2.rom_start = back.rom_start := by omega
          have hPback2 : RegionP rom back2 :=
            ⟨by omega, hbse, by omega, hbs4, hbe4, w3, hw3r, hw3a⟩
          have hchain3 : List.Chain' Rrel (back2 :: more2) := by
            cases more2 with
            | nil => simp
            | cons q l =>
              refine List.chain'_cons.mpr ⟨?_, (List.chain'_cons.mp hchain2).2⟩
              intro hqf
              have := (List.chain'_cons.mp hchain2).1 hqf
              rw [hbstart]
              exact this
          have hri2 : ReturnsInv rom
              (skip_returns (skip_returns (it :: rest) region_end)
                back2.rom_end) :=
            ⟨skip_returns_pairwise _ _ hri1.1,
             fun x hx => hri1.2 x (skip_returns_mem _ _ _ hx)⟩
          refine ih _ _ out h hri2 ⟨hchain3, ?_, ?_⟩
          · intro r hr
            rcases List.mem_cons.mp hr with hr | hr
            · subst hr; exact hPback2
            · exact hP2 r (by simp [hr])
          · intro b hb
            simp at hb
            subst hb
            refine ⟨fun _ => skip_returns_ge _ _ hri1.1, fun hbf2 => ?_⟩
            rw [hbf, hrsp] at hbf2
            exact absurd hbf2 (by simp)
        · rw [if_neg hrsp] at h
          have hrspf : back.has_rsp = false := by
            cases hbv : back.has_rsp
            · rfl
            · exact absurd hbv hrsp
          refine ih _ _ out h hri1 ⟨hchain2, hP2, ?_⟩
          intro b hb
          simp at hb
          subst hb
          refine ⟨fun ht => absurd ht hrsp, fun _ => ?_⟩
          exact ⟨region_end, wE, by omega, by omega, hbend, hwEr, hwEv,
            hret1_ge⟩

/-- The engine-level invariant: on every ROM where `find_code_regions`
succeeds, the output list is chained by the flipped ordering relation and
every region satisfies the per-region bounds. -/
theorem find_code_regions_inv (rom : Rom) (out : List RomRegion)
    (h : find_code_regions rom = .ok out) :
    List.Chain' (fun a b => Rrel b a) out ∧ ∀ r ∈ out, RegionP rom r := by
  unfold find_code_regions at h
  cases hfrl : find_return_locations rom with
  | error e => rw [hfrl] at h; simp at h
  | ok addrs =>
    rw [hfrl] at h
    have hri : ReturnsInv rom addrs := by
      unfold find_return_locations at hfrl
      obtain ⟨hall, hpw⟩ := frl_loop_post rom 0x1000 addrs hfrl
      refine ⟨hpw, fun a ha => ?_⟩
      obtain ⟨h1, h2, h3⟩ := hall a ha
      exact ⟨h1, by omega, h3⟩
    exact driver_loop_inv rom addrs.length addrs [] out h hri
      ⟨List.chain'_nil, by simp, by simp⟩

/-- C2 (amended): the regions returned by `find_code_regions` are chained so
that every adjacent pair whose left region is not flagged `has_rsp` is
disjoint and in strictly increasing start order; a left region flagged
`has_rsp` carries no such promise (and can in fact overlap its successor,
see the counterexample). -/
theorem C2_amended (rom : Rom) (regions : List RomRegion)
    (h : find_code_regions rom = .ok regions) :
    List.Chain' (fun a b => a.has_rsp = false →
      a.rom_end ≤ b.rom_start ∧ a.rom_start < b.rom_start) regions :=
  (find_code_regions_inv rom regions h).1

/-- C3: on every ROM of 4-byte-aligned length, every region returned by
`find_code_regions` has 4-byte-aligned bounds satisfying
0x1000 ≤ rom_start ≤ rom_end ≤ size. -/
theorem C3_region_bounds (rom : Rom) (regions : List RomRegion)
    (hN : rom.size % 4 = 0) (h : find_code_regions rom = .ok regions) :
    ∀ r ∈ regions, r.rom_start % 4 = 0 ∧ r.rom_end % 4 = 0 ∧
      0x1000 ≤ r.rom_start ∧ r.rom_start ≤ r.rom_end ∧
      r.rom_end ≤ rom.size := by
  intro r hr
  obtain ⟨h1, h2, h3, h4, h5, _⟩ := (find_code_regions_inv rom regions h).2 r hr
  exact ⟨h4, h5, h1, h2, h3⟩

unseal count_loop frl_loop find_code_start find_code_end zero_loop end_loop
unseal crc_loop crr_loop rsp_extend_loop

/-- Witness for C6: trimming the first discovered region of `romRspOverlap`
succeeds, and trimming its result again returns it unchanged. -/
theorem C6_witness :
    trim_region ⟨0x1000, 0x100C, false⟩ romRspOverlap
      = .ok ⟨0x1000, 0x100C, false⟩ ∧
    trim_region ⟨0x1000, 0x100C, false⟩ romRspOverlap
      = .ok ⟨0x1000, 0x100C, false⟩ :=
  ⟨by decide,
    C6_trim_region_idem ⟨0x1000, 0x100C, false⟩ ⟨0x1000, 0x100C, false⟩
      romRspOverlap (by decide)⟩


set_option maxRecDepth 40000 in
/-- C2 counterexample: on `romRspOverlap` the engine returns two regions whose
adjacent pair overlaps, `region[0].rom_end = 0x104C > 0x1044 =
region[1].rom_start`, refuting the claimed pairwise non-overlap. -/
theorem C2_counterexample :
    find_code_regions romRspOverlap =
      .ok [⟨0x1000, 0x104C, true⟩, ⟨0x1044, 0x1060, false⟩] ∧
    ¬ ((0x104C : Nat) ≤ 0x1044) :=
  ⟨by decide, by decide⟩

/-- C5: `check_range_cpu` and `check_range_rsp` accept a range of exactly
three consecutive identical store words (the rejection counter only reaches 2
there), contrary to the claim; a fourth identical store is what triggers the
rejection. -/
theorem C5_three_identical_stores_accepted :
    check_range_cpu 0x1000 0x100C romStores = .ok true ∧
    check_range_rsp 0x1000 0x100C romStores = .ok true ∧
    check_range_cpu 0x1000 0x1010 romStores = .ok false ∧
    check_range_rsp 0x1000 0x1010 romStores = .ok false := by
  decide

/-- C8: on the spec's single-minimal-function ROM the engine does not return
the region (0x1000, 0x1014): the zero words after the function decode to valid
nops, so `find_code_end` walks to the end of the span and performs the
out-of-bounds read at offset `N`, surfacing as an error. -/
theorem C8_minimal_function_oob :
    find_code_regions romMinimalFn = .error () := by decide

/-- C9: the scanner itself reads out of bounds: with a `jr $ra` in the last
word of the span, `find_return_locations` reads the delay-slot word at offset
`N`, outside `[0, N - 4]`. -/
theorem C9_scanner_oob :
    find_return_locations romTailJr = .error () ∧
    find_code_regions romTailJr = .error () := by
  decide

/-- C10 counterexample: on an all-zero ROM the start-boundary scan of the
region [0x1000, 0x1008) never finds an acceptable instruction and runs past
the end of the buffer. -/
theorem C10_counterexample :
    count_invalid_start_instructions ⟨0x1000, 0x1008, false⟩ romAllZero
      = .error () := by decide

set_option maxRecDepth 40000 in
/-- Witness for the amended C2: on `romRspOverlap` the engine succeeds with
two regions, and the conditional chain holds of its output (the overlapping
pair's left region is the `has_rsp` one, so the chain condition is vacuous
there). -/
theorem C2_amended_witness :
    List.Chain' (fun a b => a.has_rsp = false →
      a.rom_end ≤ b.rom_start ∧ a.rom_start < b.rom_start)
      romRspOverlapRegions :=
  C2_amended romRspOverlap romRspOverlapRegions (by decide)

set_option maxRecDepth 40000 in
/-- Witness for C3: `romRspOverlap` has 4-byte-aligned size, the engine
succeeds on it, and both returned regions satisfy the alignment and bound
conditions. -/
theorem C3_witness :
    romRspOverlap.size % 4 = 0 ∧
    ∀ r ∈ romRspOverlapRegions, r.rom_start % 4 = 0 ∧ r.rom_end % 4 = 0 ∧
      0x1000 ≤ r.rom_start ∧ r.rom_start ≤ r.rom_end ∧
      r.rom_end ≤ romRspOverlap.size :=
  ⟨by decide,
    C3_region_bounds romRspOverlap romRspOverlapRegions (by decide)
      (by decide)⟩

end Findcode
